import Mathlib

/-!
Shallow embedding of the nanotube-finder core (nanotube_finder_SEs_only.py)
and verification of the frozen claims about it.

The embedding covers:
* `custom_minimize`  — the integer coordinate-descent optimizer;
* `filter_lone_pixels`, `sePoints` — the noise filter and foreground extraction;
* the single-linkage clustering step (sklearn AgglomerativeClustering with
  `distance_threshold = 2`, `linkage = single`: clusters are the connected
  components of the strictly-below-threshold distance graph);
* `find_length`, `outlier_probability`, and the `chi_square` objective.

Machine floats are modelled by `ℝ` (for the Gaussian mixture and the
chi-square score) and the optimizer is generic over a linearly ordered
objective codomain.
-/

namespace Nanotube

/-! ## DiscreteOptimizer: embedding of `custom_minimize` -/

/-- State of one `custom_minimize` run: the running best vector and score,
the number of objective evaluations (`function_calls`), the memo list
`tested_parameters`, the two loop flags, and a log of every parameter
vector at which the objective has been evaluated (in evaluation order). -/
structure OptState (α : Type) where
  best : List Int
  bestChi : α
  calls : Nat
  tested : List (List Int)
  improved : Bool
  stop : Bool
  log : List (List Int)

/-- One candidate step of `custom_minimize`: if `step` is inside the bounds
for dimension `dim`, build `test_par` (the current best with coordinate
`dim` replaced), and unless it was already tested, record it, evaluate the
objective, and update the running best on strict improvement. -/
def tryStep {α : Type} [LinearOrder α] (f : List Int → α) (bounds : List (Int × Int))
    (dim : Nat) (step : Int) (s : OptState α) : OptState α :=
  if (bounds.getD dim (0, 0)).1 ≤ step ∧ step ≤ (bounds.getD dim (0, 0)).2 then
    if s.best.set dim step ∈ s.tested then s
    else
      if f (s.best.set dim step) < s.bestChi then
        { s with best := s.best.set dim step, bestChi := f (s.best.set dim step),
                 calls := s.calls + 1, tested := s.tested ++ [s.best.set dim step],
                 improved := true, log := s.log ++ [s.best.set dim step] }
      else
        { s with calls := s.calls + 1, tested := s.tested ++ [s.best.set dim step],
                 log := s.log ++ [s.best.set dim step] }
  else s

/-- Processing of one dimension inside a pass: try `best[dim] - 1` then
`best[dim] + 1` (both computed from the best vector at entry to the
dimension), then the budget check `function_calls >= max_fun_calls`,
which sets the `stop` flag. -/
def setStop {α : Type} (s : OptState α) : OptState α :=
  { s with stop := true }

/-- The budget check `max_fun_calls is not None and function_calls >= max_fun_calls`
performed after the two candidate steps of a dimension. -/
def budgetCheck {α : Type} (mfc : Option Nat) (s : OptState α) : OptState α :=
  match mfc with
  | some m => if m ≤ s.calls then setStop s else s
  | none => s

def doDim {α : Type} [LinearOrder α] (mfc : Option Nat) (f : List Int → α)
    (bounds : List (Int × Int)) (dim : Nat) (s : OptState α) : OptState α :=
  budgetCheck mfc (tryStep f bounds dim (s.best.getD dim 0 + 1)
    (tryStep f bounds dim (s.best.getD dim 0 - 1) s))

/-- One pass of the while loop: dimensions in order `0, …, n-1`; once `stop`
is set the remaining dimensions of the pass are skipped (the `break`). -/
def doPass {α : Type} [LinearOrder α] (mfc : Option Nat) (f : List Int → α)
    (bounds : List (Int × Int)) (n : Nat) (s : OptState α) : OptState α :=
  (List.range n).foldl (fun st dim => if st.stop then st else doDim mfc f bounds dim st) s

/-- The `while improved and not stop` loop, with explicit fuel; `improved`
is reset to false at the top of each executed pass. -/
def optLoop {α : Type} [LinearOrder α] (mfc : Option Nat) (f : List Int → α)
    (bounds : List (Int × Int)) (n : Nat) : Nat → OptState α → OptState α
  | 0, s => s
  | fuel + 1, s =>
    if s.improved = true ∧ s.stop = false then
      optLoop mfc f bounds n fuel (doPass mfc f bounds n { s with improved := false })
    else s

/-- Initial state of a run: the guess is evaluated once (`function_calls = 1`)
but is not recorded in `tested_parameters`. -/
def initState {α : Type} (f : List Int → α) (guess : List Int) : OptState α :=
  { best := guess, bestChi := f guess, calls := 1, tested := [], improved := true,
    stop := false, log := [guess] }

/-- Embedding of `custom_minimize(fun, guess, max_fun_calls, bounds)`; the
extra `fuel` argument bounds the number of passes of the while loop (the
source loop has no such bound; termination is proved separately). -/
def custom_minimize {α : Type} [LinearOrder α] (fuel : Nat) (f : List Int → α)
    (guess : List Int) (maxFunCalls : Option Nat) (bounds : List (Int × Int)) :
    OptState α :=
  optLoop maxFunCalls f bounds guess.length fuel (initState f guess)

/-- The loop has exited by its own condition (not by fuel exhaustion). -/
def finished {α : Type} (s : OptState α) : Prop :=
  s.improved = false ∨ s.stop = true

/-- Memoization invariant: along a run, the evaluation log is exactly the
initial guess followed by the memo list, and the memo list has no
duplicates. -/
def MemoInv {α : Type} (guess : List Int) (s : OptState α) : Prop :=
  s.log = guess :: s.tested ∧ s.tested.Nodup

/-! ### Call counting -/

/-- The call counter always equals the length of the evaluation log. -/
def CallsLog {α : Type} (s : OptState α) : Prop := s.calls = s.log.length

/-! ### Claim C2: memoization of evaluations -/

/-- Objective used by the optimizer counterexamples: the (single) parameter
itself, so that stepping down always improves. -/
def cexObj : List Int → Int := fun v => v.getD 0 0

/-! ### Claim C3: the evaluation budget -/

/-- Budget invariant: while `stop` is not set the counter is at most
`max (m-1) 1` at every dimension boundary, and it never exceeds
`max (m+1) 3` at any point of the run. -/
def BudgetInv (m : Nat) {α : Type} (s : OptState α) : Prop :=
  (s.stop = false → s.calls ≤ max (m - 1) 1) ∧ s.calls ≤ max (m + 1) 3

/-! ### Claim C7: the quadratic scenario -/

/-- The scenario objective `f([p]) = (p - 113)²`. -/
def fQuad : List Int → Int := fun v => (v.getD 0 0 - 113) * (v.getD 0 0 - 113)

/-! ### Claim C10: termination without a budget -/

/-- The inclusive integer range `[lo, hi]` as a list. -/
def intRange (lo hi : Int) : List Int :=
  (List.range (hi + 1 - lo).toNat).map (fun (k : Nat) => lo + (k : Int))

/-- All values coordinate `d` of the best vector can ever take during a run:
its initial value `guess[d]` or any in-bounds value. -/
def coordSet (guess : List Int) (bounds : List (Int × Int)) (d : Nat) : List Int :=
  guess.getD d 0 :: intRange (bounds.getD d (0, 0)).1 (bounds.getD d (0, 0)).2

/-- All vectors of length `k` whose coordinate `i` lies in `coordSet (d+i)`. -/
def candFrom (guess : List Int) (bounds : List (Int × Int)) : Nat → Nat → List (List Int)
  | _, 0 => [[]]
  | d, k + 1 =>
    (coordSet guess bounds d).flatMap
      (fun x => (candFrom guess bounds (d + 1) k).map (fun v => x :: v))

/-- The finite box of all parameter vectors a run can ever visit. -/
def cands (guess : List Int) (bounds : List (Int × Int)) : List (List Int) :=
  candFrom guess bounds 0 guess.length

/-- A vector the run can visit: right length, every coordinate in its
coordinate set. -/
def GoodVec (guess : List Int) (bounds : List (Int × Int)) (v : List Int) : Prop :=
  v.length = guess.length ∧ ∀ i < guess.length, v.getD i 0 ∈ coordSet guess bounds i

/-- Box invariant of a run: the best vector and all tested vectors stay in
the finite box, and the memo has no duplicates. -/
def BoxInv (guess : List Int) (bounds : List (Int × Int)) {α : Type} (s : OptState α) : Prop :=
  GoodVec guess bounds s.best ∧ (∀ v ∈ s.tested, GoodVec guess bounds v) ∧ s.tested.Nodup

/-! ## Grids, ThresholdMap and NoiseFilter -/

/-- Grids (images) are lists of rows of integer pixel values. -/
abbrev Grid := List (List Int)

/-- Pixel access with the zero-padding used by `convolve2d(..., mode='same')`:
out-of-bounds reads are 0 (Background). -/
def gget (g : Grid) (i j : Int) : Int :=
  if 0 ≤ i ∧ 0 ≤ j then (g.getD i.toNat []).getD j.toNat 0 else 0

/-- Embedding of `simple_lin_map`: a pixel is classified SE (2) iff its value
is strictly greater than the threshold `par[0]`, else Background (0),
vectorized over the whole grid. -/
def simple_lin_map (par : List Int) (g : Grid) : Grid :=
  g.map (fun row => row.map (fun px => if par.getD 0 0 < px then 2 else 0))

/-- The eight neighbor offsets of a pixel. -/
def offsets8 : List (Int × Int) :=
  [(-1, -1), (-1, 0), (-1, 1), (0, -1), (0, 1), (1, -1), (1, 0), (1, 1)]

/-- The full 3×3 neighborhood: the pixel itself and its eight neighbors. -/
def offsets9 : List (Int × Int) := (0, 0) :: offsets8

/-- Boolean foreground test `image == 2`. -/
def isSE (g : Grid) (i j : Int) : Bool := gget g i j == 2

/-- The 3×3 neighborhood sum of the boolean SE image, i.e. the value of
`convolve2d(unfiltered_SE_image, np.ones((3,3)), mode='same')` at `(i,j)`. -/
def nbhdCount (g : Grid) (i j : Int) : Nat :=
  (offsets9.filter (fun p => isSE g (i + p.1) (j + p.2))).length

/-- Embedding of `cluster_image.filter_lone_pixels`: an SE pixel is kept (as
value 2) iff its 3×3 neighborhood contains more than one SE pixel; all other
pixels become Background 0. The output grid has the shape of the input. -/
def filter_lone_pixels (g : Grid) : Grid :=
  (List.range g.length).map (fun (i : Nat) =>
    (List.range (g.getD i []).length).map (fun (j : Nat) =>
      if isSE g i j ∧ 1 < nbhdCount g i j then 2 else 0))

/-- Embedding of `np.argwhere(filt_image == 2)`: the (row, col) coordinates
of SE pixels in row-major order. -/
def sePoints (g : Grid) : List (Nat × Nat) :=
  (List.range g.length).flatMap (fun (i : Nat) =>
    (List.range (g.getD i []).length).filterMap (fun (j : Nat) =>
      if isSE g i j then some (i, j) else none))

/-! ## BlobClusterer: the single-linkage clustering step -/

/-- Squared Euclidean distance between two pixel coordinates. -/
def sqDist (p q : Nat × Nat) : Int :=
  ((p.1 : Int) - q.1) ^ 2 + ((p.2 : Int) - q.2) ^ 2

/-- Direct linkage. sklearn's AgglomerativeClustering with `linkage='single'`
and `distance_threshold=2` merges clusters while their minimum pairwise
distance is strictly below the threshold, so two points are directly linkable
iff their distance is < 2, i.e. squared distance < 4. On the integer grid this
is exactly 8-neighborhood adjacency — as the code's own comment says:
"a pixel is only added to a cluster if it is touching a point in that cluster
(including diagonals)". -/
def adjB (p q : Nat × Nat) : Bool := decide (sqDist p q < 4)

/-- One propagation round: all points of `pts` that are in `s` or directly
linked to a point of `s`. -/
def grow (pts s : List (Nat × Nat)) : List (Nat × Nat) :=
  pts.filter (fun q => decide (q ∈ s) || s.any (fun a => adjB a q))

/-- The cluster of `p`: `pts.length` propagation rounds from `{p}`. -/
def reachSet (pts : List (Nat × Nat)) (p : Nat × Nat) : List (Nat × Nat) :=
  (grow pts)^[pts.length] [p]

/-- Decidable co-clustering test. -/
def reachB (pts : List (Nat × Nat)) (p q : Nat × Nat) : Bool :=
  decide (q ∈ reachSet pts p)

/-- Chain reachability: two points are connected by a chain of points of
`pts` whose consecutive pairwise distances are all strictly below 2. -/
def Reaches (pts : List (Nat × Nat)) : Nat × Nat → Nat × Nat → Prop :=
  Relation.ReflTransGen (fun a b => a ∈ pts ∧ b ∈ pts ∧ adjB a b = true)

/-- Index of the first point of `pts` (row-major order) in the same cluster
as `p`; two points get equal labels iff their clusters coincide. -/
def repIdx (pts : List (Nat × Nat)) (p : Nat × Nat) : Nat :=
  pts.findIdx (fun q => reachB pts p q)

/-- The distinct values of a list in order of first appearance (structural
recursion on a fuel bounded by the list length, so it evaluates in the
kernel). -/
def firstAppearanceAux : Nat → List Nat → List Nat
  | _, [] => []
  | 0, _ :: _ => []
  | n + 1, a :: l => a :: firstAppearanceAux n (l.filter (fun x => x ≠ a))

/-- The distinct values of a list in order of first appearance. -/
def firstAppearance (l : List Nat) : List Nat := firstAppearanceAux l.length l

/-- Cluster labels: contiguous ids from 0, numbering clusters in order of
first appearance along the (row-major) point list — the contiguous labelling
of `fit_predict`. -/
def clusterLabels (pts : List (Nat × Nat)) : List Nat :=
  (pts.map (repIdx pts)).map (fun r => (firstAppearance (pts.map (repIdx pts))).indexOf r)

/-- Embedding of the label computation of `find_clusters`, including the
`except:` fallback `np.ones(len(self.SE_points))` — sklearn raises for fewer
than 2 samples, and the fallback labels every point `1`. -/
def findClustersLabels (pts : List (Nat × Nat)) : List Nat :=
  if pts.length < 2 then List.replicate pts.length 1
  else clusterLabels pts

/-- The cluster count as the code computes it:
`0 if np.size(clusters) == 0 else max(clusters) + 1`. -/
def numClusters (labels : List Nat) : Nat :=
  if labels.length = 0 then 0 else labels.foldr max 0 + 1

/-! ## OutlierScorer: embedding of `outlier_probability` -/

/-- One weighted Gaussian density term of the mixture. -/
noncomputable def gaussTerm (wgt mu sigma x : ℝ) : ℝ :=
  wgt / Real.sqrt (2 * Real.pi * sigma ^ 2) * Real.exp (-(x - mu) ^ 2 / (2 * sigma ^ 2))

/-- Embedding of `outlier_probability(g, mu_g, sigma_g, mu_b, sigma_b, data)`:
`bad_term / (good_term + bad_term)` with the two weighted Gaussian densities
of the fixed two-component mixture. -/
noncomputable def outlier_probability (g mu_g sigma_g mu_b sigma_b x : ℝ) : ℝ :=
  gaussTerm (1 - g) mu_b sigma_b x /
    (gaussTerm g mu_g sigma_g x + gaussTerm (1 - g) mu_b sigma_b x)

/-- The label of a point (the labels of `clusterLabels` depend only on the
point's value): position of its cluster in first-appearance order. -/
def labelOf (pts : List (Nat × Nat)) (p : Nat × Nat) : Nat :=
  (firstAppearance (pts.map (repIdx pts))).indexOf (repIdx pts p)

/-- Embedding of `self.SE_points[np.where(clusters_SE == lab)]`: the points
carrying label `lab`, in point order. -/
def clusterGroup (pts : List (Nat × Nat)) (labels : List Nat) (lab : Nat) :
    List (Nat × Nat) :=
  ((pts.zip labels).filter (fun pl => pl.2 == lab)).map Prod.fst

/-- Fold maximum of a list of naturals (`max(python list)` for nonempty). -/
def natMax (l : List Nat) : Nat := l.foldr max 0

/-- Fold minimum of a list of naturals (`min(python list)` for nonempty). -/
def natMin : List Nat → Nat
  | [] => 0
  | a :: t => t.foldr min a

/-- Embedding of `find_length`: the bounding-box diagonal
`sqrt((max x - min x)^2 + (max y - min y)^2)` of a cluster's points, where
x are the column (second) and y the row (first) coordinates. -/
noncomputable def find_length (ps : List (Nat × Nat)) : ℝ :=
  Real.sqrt (((natMax (ps.map Prod.snd) - natMin (ps.map Prod.snd)) ^ 2 +
    (natMax (ps.map Prod.fst) - natMin (ps.map Prod.fst)) ^ 2 : ℕ) : ℝ)

/-! ## FitnessEvaluator: embedding of the `chi_square` computation -/

/-- `np.var`: the mean of squared deviations from the mean (population
variance). -/
noncomputable def npVar (l : List ℝ) : ℝ :=
  (l.map (fun x => (x - l.sum / l.length) ^ 2)).sum / l.length

/-- Width of cluster `k`: `SE_sizes[k] / SE_lengths[k]`. -/
noncomputable def clusterWidth (pts : List (Nat × Nat)) (labels : List Nat) (k : Nat) : ℝ :=
  (clusterGroup pts labels k).length / find_length (clusterGroup pts labels k)

/-- `SE_good_clust`: the cluster indices whose size exceeds 120 and whose
width has outlier probability below 0.9. -/
noncomputable def goodClusters (pts : List (Nat × Nat)) (labels : List Nat) : List Nat :=
  (List.range (numClusters labels)).filter (fun k =>
    decide (120 < (clusterGroup pts labels k).length) &&
    @decide (outlier_probability 0.9 8 1 30 5 (clusterWidth pts labels k) < 0.9)
      (Classical.propDecidable _))

/-- `SE_widths[SE_good_clust]`: the widths of the accepted clusters. -/
noncomputable def acceptedWidths (pts : List (Nat × Nat)) (labels : List Nat) : List ℝ :=
  (goodClusters pts labels).map (clusterWidth pts labels)

/-- Embedding of the `chi_square` assignment of `cluster_image.__init__`:
penalty 64.0 when no accepted widths exist, else
`np.sum((widths - 8)**2 / var) / len(good)` with `np.var` replaced by 1 when
it is exactly 0. -/
noncomputable def chi_square (pts : List (Nat × Nat)) (labels : List Nat) : ℝ :=
  @ite ℝ (acceptedWidths pts labels = []) (Classical.propDecidable _) 64.0
    (((acceptedWidths pts labels).map (fun w =>
        (w - 8) ^ 2 /
          (@ite ℝ (npVar (acceptedWidths pts labels) = 0) (Classical.propDecidable _) 1
            (npVar (acceptedWidths pts labels))))).sum /
      (goodClusters pts labels).length)

/-- The full pipeline of `cluster_image.__init__`: filter, cluster, score. -/
noncomputable def cluster_image_chi (g : Grid) : ℝ :=
  chi_square (sePoints (filter_lone_pixels g))
    (findClustersLabels (sePoints (filter_lone_pixels g)))

/-- The population variance as the spec words it, for the refinement
comparison. -/
noncomputable def specVariance (l : List ℝ) : ℝ :=
  (l.map (fun x => (x - l.sum / l.length) ^ 2)).sum / l.length

/-- The spec's stated return value: the fixed penalty 64.0 when zero clusters
are accepted, else `sum((width_i - 8)^2) / variance / acceptedCount` with 1
substituted for a variance that is exactly 0. -/
noncomputable def spec_chi (ws : List ℝ) (count : Nat) : ℝ :=
  @ite ℝ (ws = []) (Classical.propDecidable _) 64
    ((ws.map (fun w => (w - 8) ^ 2)).sum /
      (@ite ℝ (specVariance ws = 0) (Classical.propDecidable _) 1 (specVariance ws)) /
      count)

/-! ## A concrete 97x17 image: seven large clusters with chi-square exactly 64

The cluster sizes 195, 195, 190, 190, 190, 185, 185 (each of bounding-box
length 20) are chosen so that the score is exactly 64 not only in real
arithmetic but also in IEEE-754 double precision as numpy evaluates it:
every width `size/20.0` is a dyadic rational (the sizes are multiples of 5),
so the widths, their sequential sum 66.5, the mean 9.5, the deviations and
their squares are all computed exactly; the only roundings are the two
correctly-rounded divisions by 7 (the variance 1/28) and the per-term
divisions, and the float64 result is exactly 64.0 for every ordering of the
seven clusters. -/

/-- A full row of 17 SE pixels. -/
def row17 : List Int := List.replicate 17 2

/-- A row with SE pixels in the first `k` columns only. -/
def rowP (k : Nat) : List Int := List.replicate k 2 ++ List.replicate (17 - k) 0

/-- An empty (all-background) row. -/
def row0 : List Int := List.replicate 17 0

/-- A 13x17 blob: full rows except rows 3, 5 and 7, which keep their first
`k1`, `k2` resp. `k3` columns. Its pixel count is `170 + k1 + k2 + k3`. -/
def blob (k1 k2 k3 : Nat) : Grid :=
  [row17, row17, row17, rowP k1, row17, rowP k2, row17, rowP k3,
   row17, row17, row17, row17, row17]

/-- Stack a list of 13-row blobs vertically, one empty row after each, so
consecutive blobs are separated by one empty row and each blob occupies a
14-row band. -/
def stackBlobs : List Grid → Grid
  | [] => []
  | g :: rest => g ++ (row0 :: stackBlobs rest)

/-- Seven blobs of sizes 195, 190, 185, 190, 195, 190, 185, stacked with one
empty row between consecutive blobs. -/
def G64 : Grid :=
  stackBlobs [blob 8 8 9, blob 7 6 7, blob 5 5 5, blob 7 6 7, blob 8 8 9,
    blob 7 6 7, blob 5 5 5]

/-- The filtered point set of the pipeline run on `G64` with threshold 1. -/
def pts64 : List (Nat × Nat) :=
  sePoints (filter_lone_pixels (simple_lin_map [1] G64))

/-- The points of one blob, shifted to its vertical position in `G64`. -/
def blockB (b k1 k2 k3 : Nat) : List (Nat × Nat) :=
  (sePoints (blob k1 k2 k3)).map (fun p => (14 * b + p.1, p.2))

/-- Chain check: every point after the first is 8-adjacent to one of the 18
points just before it (in row-major order, a point's earlier neighbor in the
same or previous row is at most 18 positions back). `acc` holds the already
seen points in reverse. -/
def chainAux : List (Nat × Nat) → List (Nat × Nat) → Bool
  | _, [] => true
  | acc, x :: rest =>
    (acc.isEmpty || (acc.take 18).any (fun a => adjB a x)) && chainAux (x :: acc) rest

def chainOK (l : List (Nat × Nat)) : Bool := chainAux [] l

/-- Band check: all points of `l` have row in `[14b, 14b+12]`. -/
def bandOK (b : Nat) (l : List (Nat × Nat)) : Bool :=
  l.all (fun r => decide (14 * b ≤ r.1) && decide (r.1 ≤ 14 * b + 12))

/-- Generic preservation of an invariant along a `List.foldl`. -/
theorem foldl_inv {β γ : Type} (P : β → Prop) (g : β → γ → β)
    (hg : ∀ b d, P b → P (g b d)) :
    ∀ (l : List γ) (b : β), P b → P (l.foldl g b) := by
  intro l
  induction l with
  | nil => intro b hb; exact hb
  | cons d ds ih => intro b hb; exact ih _ (hg b d hb)

/-! ### Basic run invariants -/

/-- `tryStep` leaves `stop` unchanged. -/
theorem tryStep_stop {α : Type} [LinearOrder α] (f : List Int → α) (bounds : List (Int × Int))
    (dim : Nat) (step : Int) (s : OptState α) :
    (tryStep f bounds dim step s).stop = s.stop := by
  unfold tryStep
  split
  · split
    · rfl
    · split <;> rfl
  · rfl

/-- `tryStep` either leaves memo, log and counter unchanged, or appends the
same new untested vector to memo and log and bumps the counter. -/
theorem tryStep_cases {α : Type} [LinearOrder α] (f : List Int → α) (bounds : List (Int × Int))
    (dim : Nat) (step : Int) (s : OptState α) :
    (tryStep f bounds dim step s).tested = s.tested ∧
      (tryStep f bounds dim step s).log = s.log ∧
      (tryStep f bounds dim step s).calls = s.calls ∨
    ∃ t, t ∉ s.tested ∧ (tryStep f bounds dim step s).tested = s.tested ++ [t] ∧
      (tryStep f bounds dim step s).log = s.log ++ [t] ∧
      (tryStep f bounds dim step s).calls = s.calls + 1 := by
  unfold tryStep
  split
  · split
    · exact Or.inl ⟨rfl, rfl, rfl⟩
    · right
      refine ⟨s.best.set dim step, by assumption, ?_⟩
      split <;> exact ⟨rfl, rfl, rfl⟩
  · exact Or.inl ⟨rfl, rfl, rfl⟩

/-- The budget check only touches the `stop` flag. -/
theorem budgetCheck_fields {α : Type} (mfc : Option Nat) (s : OptState α) :
    (budgetCheck mfc s).tested = s.tested ∧ (budgetCheck mfc s).log = s.log ∧
      (budgetCheck mfc s).calls = s.calls ∧ (budgetCheck mfc s).best = s.best ∧
      (budgetCheck mfc s).improved = s.improved := by
  cases mfc with
  | none => exact ⟨rfl, rfl, rfl, rfl, rfl⟩
  | some m =>
    unfold budgetCheck
    dsimp only
    by_cases h : m ≤ s.calls
    · rw [if_pos h]
      exact ⟨rfl, rfl, rfl, rfl, rfl⟩
    · rw [if_neg h]
      exact ⟨rfl, rfl, rfl, rfl, rfl⟩

/-- `doDim` has the same memo, log and counter as its two inner `tryStep`s. -/
theorem doDim_tested_log {α : Type} [LinearOrder α] (mfc : Option Nat) (f : List Int → α)
    (bounds : List (Int × Int)) (dim : Nat) (s : OptState α) :
    (doDim mfc f bounds dim s).tested = (tryStep f bounds dim (s.best.getD dim 0 + 1)
        (tryStep f bounds dim (s.best.getD dim 0 - 1) s)).tested ∧
    (doDim mfc f bounds dim s).log = (tryStep f bounds dim (s.best.getD dim 0 + 1)
        (tryStep f bounds dim (s.best.getD dim 0 - 1) s)).log ∧
    (doDim mfc f bounds dim s).calls = (tryStep f bounds dim (s.best.getD dim 0 + 1)
        (tryStep f bounds dim (s.best.getD dim 0 - 1) s)).calls := by
  obtain ⟨h1, h2, h3, _, _⟩ := budgetCheck_fields mfc (tryStep f bounds dim
    (s.best.getD dim 0 + 1) (tryStep f bounds dim (s.best.getD dim 0 - 1) s))
  exact ⟨h1, h2, h3⟩

theorem memoInv_tryStep {α : Type} [LinearOrder α] {guess : List Int} (f : List Int → α)
    (bounds : List (Int × Int)) (dim : Nat) (step : Int) {s : OptState α}
    (h : MemoInv guess s) : MemoInv guess (tryStep f bounds dim step s) := by
  rcases tryStep_cases f bounds dim step s with ⟨ht, hl, _⟩ | ⟨t, hnt, ht, hl, _⟩
  · exact ⟨hl ▸ ht ▸ h.1, ht ▸ h.2⟩
  · constructor
    · rw [hl, ht, h.1]
      rfl
    · rw [ht]
      exact ((List.perm_append_singleton t s.tested).nodup_iff).mpr
        (List.nodup_cons.mpr ⟨hnt, h.2⟩)

theorem memoInv_doDim {α : Type} [LinearOrder α] {guess : List Int} (mfc : Option Nat)
    (f : List Int → α) (bounds : List (Int × Int)) (dim : Nat) {s : OptState α}
    (h : MemoInv guess s) : MemoInv guess (doDim mfc f bounds dim s) := by
  obtain ⟨ht, hl, _⟩ := doDim_tested_log mfc f bounds dim s
  have h2 := memoInv_tryStep f bounds dim (s.best.getD dim 0 + 1)
    (@memoInv_tryStep _ _ guess f bounds dim (s.best.getD dim 0 - 1) _ h)
  refine ⟨?_, ht ▸ h2.2⟩
  rw [hl, ht]
  exact h2.1

theorem memoInv_doPass {α : Type} [LinearOrder α] {guess : List Int} (mfc : Option Nat)
    (f : List Int → α) (bounds : List (Int × Int)) (n : Nat) {s : OptState α}
    (h : MemoInv guess s) : MemoInv guess (doPass mfc f bounds n s) := by
  refine foldl_inv (MemoInv guess) _ ?_ (List.range n) s h
  intro b d hb
  split
  · exact hb
  · exact memoInv_doDim mfc f bounds d hb

theorem memoInv_optLoop {α : Type} [LinearOrder α] {guess : List Int} (mfc : Option Nat)
    (f : List Int → α) (bounds : List (Int × Int)) (n : Nat) (fuel : Nat) {s : OptState α}
    (h : MemoInv guess s) : MemoInv guess (optLoop mfc f bounds n fuel s) := by
  induction fuel generalizing s with
  | zero => exact h
  | succ k ih =>
    unfold optLoop
    split
    · exact ih (memoInv_doPass mfc f bounds n ⟨h.1, h.2⟩)
    · exact h

/-- Every `custom_minimize` run satisfies the memoization invariant. -/
theorem custom_minimize_memoInv {α : Type} [LinearOrder α] (fuel : Nat) (f : List Int → α)
    (guess : List Int) (mfc : Option Nat) (bounds : List (Int × Int)) :
    MemoInv guess (custom_minimize fuel f guess mfc bounds) :=
  memoInv_optLoop mfc f bounds guess.length fuel ⟨rfl, List.nodup_nil⟩

/-! ### Loop stability: a run that exited by its own condition is unchanged
by extra fuel. -/

theorem optLoop_not_run {α : Type} [LinearOrder α] (mfc : Option Nat) (f : List Int → α)
    (bounds : List (Int × Int)) (n : Nat) (fuel : Nat) {s : OptState α}
    (h : ¬(s.improved = true ∧ s.stop = false)) :
    optLoop mfc f bounds n fuel s = s := by
  cases fuel with
  | zero => rfl
  | succ k =>
    unfold optLoop
    rw [if_neg h]

theorem optLoop_succ_run {α : Type} [LinearOrder α] (mfc : Option Nat) (f : List Int → α)
    (bounds : List (Int × Int)) (n : Nat) (fuel : Nat) {s : OptState α}
    (h : s.improved = true ∧ s.stop = false) :
    optLoop mfc f bounds n (fuel + 1) s =
      optLoop mfc f bounds n fuel (doPass mfc f bounds n { s with improved := false }) := by
  conv_lhs => rw [optLoop]
  rw [if_pos h]

theorem optLoop_add {α : Type} [LinearOrder α] (mfc : Option Nat) (f : List Int → α)
    (bounds : List (Int × Int)) (n : Nat) (a b : Nat) (s : OptState α) :
    optLoop mfc f bounds n (a + b) s = optLoop mfc f bounds n b (optLoop mfc f bounds n a s) := by
  induction a generalizing s with
  | zero => rw [Nat.zero_add]; rfl
  | succ k ih =>
    by_cases h : s.improved = true ∧ s.stop = false
    · have e1 : k + 1 + b = (k + b) + 1 := by omega
      rw [e1, optLoop_succ_run mfc f bounds n (k + b) h,
        optLoop_succ_run mfc f bounds n k h]
      exact ih _
    · rw [optLoop_not_run mfc f bounds n (k + 1) h, optLoop_not_run mfc f bounds n (k + 1 + b) h,
        optLoop_not_run mfc f bounds n b h]

theorem not_cond_of_finished {α : Type} {s : OptState α} (h : finished s) :
    ¬(s.improved = true ∧ s.stop = false) := by
  rintro ⟨h1, h2⟩
  rcases h with h | h
  · rw [h1] at h; exact Bool.noConfusion h
  · rw [h2] at h; exact Bool.noConfusion h

/-- More fuel does not change a run that already finished. -/
theorem custom_minimize_fuel_mono {α : Type} [LinearOrder α] {fuel fuel' : Nat}
    (h : fuel ≤ fuel') (f : List Int → α) (guess : List Int) (mfc : Option Nat)
    (bounds : List (Int × Int)) (hf : finished (custom_minimize fuel f guess mfc bounds)) :
    custom_minimize fuel' f guess mfc bounds = custom_minimize fuel f guess mfc bounds := by
  obtain ⟨d, rfl⟩ := Nat.exists_eq_add_of_le h
  unfold custom_minimize
  rw [optLoop_add]
  exact optLoop_not_run mfc f bounds guess.length d (not_cond_of_finished hf)

theorem callsLog_tryStep {α : Type} [LinearOrder α] (f : List Int → α)
    (bounds : List (Int × Int)) (dim : Nat) (step : Int) {s : OptState α}
    (h : CallsLog s) : CallsLog (tryStep f bounds dim step s) := by
  rcases tryStep_cases f bounds dim step s with ⟨ht, hl, hc⟩ | ⟨t, _, ht, hl, hc⟩
  · unfold CallsLog; rw [hl, hc]; exact h
  · unfold CallsLog
    rw [hl, hc, List.length_append, h]
    rfl

theorem callsLog_doDim {α : Type} [LinearOrder α] (mfc : Option Nat) (f : List Int → α)
    (bounds : List (Int × Int)) (dim : Nat) {s : OptState α}
    (h : CallsLog s) : CallsLog (doDim mfc f bounds dim s) := by
  obtain ⟨_, hl, hc⟩ := doDim_tested_log mfc f bounds dim s
  have h2 := callsLog_tryStep f bounds dim (s.best.getD dim 0 + 1)
    (callsLog_tryStep f bounds dim (s.best.getD dim 0 - 1) h)
  unfold CallsLog
  rw [hl, hc]
  exact h2

theorem callsLog_optLoop {α : Type} [LinearOrder α] (mfc : Option Nat) (f : List Int → α)
    (bounds : List (Int × Int)) (n : Nat) (fuel : Nat) {s : OptState α}
    (h : CallsLog s) : CallsLog (optLoop mfc f bounds n fuel s) := by
  induction fuel generalizing s with
  | zero => exact h
  | succ k ih =>
    unfold optLoop
    split
    · refine ih ?_
      refine foldl_inv CallsLog _ ?_ (List.range n) _ h
      intro b d hb
      split
      · exact hb
      · exact callsLog_doDim mfc f bounds d hb
    · exact h

theorem callsLog_run {α : Type} [LinearOrder α] (fuel : Nat) (f : List Int → α)
    (guess : List Int) (mfc : Option Nat) (bounds : List (Int × Int)) :
    CallsLog (custom_minimize fuel f guess mfc bounds) :=
  callsLog_optLoop mfc f bounds guess.length fuel rfl

theorem nodup_count_le_one {l : List (List Int)} (h : l.Nodup) (v : List Int) :
    l.count v ≤ 1 := by
  induction l with
  | nil => simp
  | cons a t ih =>
    rcases List.nodup_cons.mp h with ⟨hna, hnt⟩
    rw [List.count_cons]
    by_cases hv : v = a
    · subst hv
      rw [List.count_eq_zero.mpr hna]
      simp
    · rw [if_neg (fun he => hv (beq_iff_eq.mp he).symm), Nat.add_zero]
      exact ih hnt

/-- C2 (amended): every candidate evaluation of a `custom_minimize` run is
memoized by full-vector equality, so each parameter vector is evaluated at
most once — except the initial guess, which is evaluated once before the
loop without being recorded in the memo, and may therefore be re-evaluated
at most once more when proposed as a candidate. -/
theorem claim_C2_eval_count {α : Type} [LinearOrder α] (fuel : Nat) (f : List Int → α)
    (guess : List Int) (mfc : Option Nat) (bounds : List (Int × Int)) (v : List Int) :
    (custom_minimize fuel f guess mfc bounds).log.count v ≤
      if v = guess then 2 else 1 := by
  obtain ⟨hlog, hnd⟩ := custom_minimize_memoInv fuel f guess mfc bounds
  have h1 : (custom_minimize fuel f guess mfc bounds).tested.count v ≤ 1 :=
    nodup_count_le_one hnd v
  by_cases hv : v = guess
  · rw [if_pos hv, hlog]
    have h2 : (guess :: (custom_minimize fuel f guess mfc bounds).tested).count v ≤
        (custom_minimize fuel f guess mfc bounds).tested.count v + 1 := by
      rw [List.count_cons]
      split <;> omega
    omega
  · rw [if_neg hv, hlog, List.count_cons_of_ne hv]
    exact h1

/-- C2 (counterexample to the claim as stated): with objective `f([p]) = p`,
guess `[10]`, bounds `[(0, 20)]` and no budget, the run evaluates the
initial guess `[10]` twice: once before the loop, and once again when `[10]`
is proposed as a candidate from `[9]` — the memo never contains the guess. -/
theorem claim_C2_cex :
    (custom_minimize 30 cexObj [10] none [(0, 20)]).log.count [10] = 2 ∧
      ¬ (custom_minimize 30 cexObj [10] none [(0, 20)]).log.Nodup := by
  decide

theorem tryStep_calls_le {α : Type} [LinearOrder α] (f : List Int → α)
    (bounds : List (Int × Int)) (dim : Nat) (step : Int) (s : OptState α) :
    (tryStep f bounds dim step s).calls ≤ s.calls + 1 := by
  rcases tryStep_cases f bounds dim step s with ⟨_, _, hc⟩ | ⟨t, _, _, _, hc⟩ <;> omega

theorem budgetInv_doDim {α : Type} [LinearOrder α] (m : Nat) (f : List Int → α)
    (bounds : List (Int × Int)) (dim : Nat) {s : OptState α}
    (hc : s.calls ≤ max (m - 1) 1) :
    BudgetInv m (doDim (some m) f bounds dim s) := by
  have h1 := tryStep_calls_le f bounds dim (s.best.getD dim 0 - 1) s
  have h2 := tryStep_calls_le f bounds dim (s.best.getD dim 0 + 1)
    (tryStep f bounds dim (s.best.getD dim 0 - 1) s)
  unfold doDim budgetCheck
  dsimp only
  by_cases hm : m ≤ (tryStep f bounds dim (s.best.getD dim 0 + 1)
      (tryStep f bounds dim (s.best.getD dim 0 - 1) s)).calls
  · rw [if_pos hm]
    refine ⟨fun hco => Bool.noConfusion hco, ?_⟩
    show (tryStep f bounds dim (s.best.getD dim 0 + 1)
      (tryStep f bounds dim (s.best.getD dim 0 - 1) s)).calls ≤ max (m + 1) 3
    omega
  · rw [if_neg hm]
    exact ⟨fun _ => by omega, by omega⟩

theorem budgetInv_pass_step {α : Type} [LinearOrder α] (m : Nat) (f : List Int → α)
    (bounds : List (Int × Int)) (dim : Nat) {s : OptState α}
    (h : BudgetInv m s) :
    BudgetInv m (if s.stop then s else doDim (some m) f bounds dim s) := by
  cases hb : s.stop with
  | true =>
    rw [if_pos rfl]
    exact h
  | false =>
    rw [if_neg (fun hco => Bool.noConfusion hco)]
    exact budgetInv_doDim m f bounds dim (h.1 hb)

theorem budgetInv_optLoop {α : Type} [LinearOrder α] (m : Nat) (f : List Int → α)
    (bounds : List (Int × Int)) (n : Nat) (fuel : Nat) {s : OptState α}
    (h : BudgetInv m s) : BudgetInv m (optLoop (some m) f bounds n fuel s) := by
  induction fuel generalizing s with
  | zero => exact h
  | succ k ih =>
    unfold optLoop
    split
    · refine ih ?_
      refine foldl_inv (BudgetInv m) _ ?_ (List.range n) _ h
      intro b d hb
      exact budgetInv_pass_step m f bounds d hb
    · exact h

/-- C3 (amended): with a budget `max_fun_calls = m`, the total number of
objective evaluations of a run is at most `max (m+1) 3`: the budget is only
checked after a dimension's two candidate evaluations, so it can be
exceeded by up to two evaluations (and the unchecked initial evaluation
plus the first dimension always allow up to three). -/
theorem claim_C3_budget_bound {α : Type} [LinearOrder α] (fuel : Nat) (f : List Int → α)
    (guess : List Int) (m : Nat) (bounds : List (Int × Int)) :
    (custom_minimize fuel f guess (some m) bounds).log.length ≤ max (m + 1) 3 := by
  have hb : BudgetInv m (custom_minimize fuel f guess (some m) bounds) := by
    refine budgetInv_optLoop m f bounds guess.length fuel ⟨fun _ => ?_, ?_⟩
    · show 1 ≤ max (m - 1) 1
      omega
    · show 1 ≤ max (m + 1) 3
      omega
  have hc : CallsLog (custom_minimize fuel f guess (some m) bounds) :=
    callsLog_run fuel f guess (some m) bounds
  unfold CallsLog at hc
  rw [← hc]
  exact hb.2

/-- C3 (counterexample to the claim as stated): with budget
`max_fun_calls = 1` the run still performs 3 evaluations — the initial
guess plus both candidates of the first dimension — because the budget
is only checked after the dimension finishes. -/
theorem claim_C3_cex :
    ¬ ((custom_minimize 5 cexObj [10] (some 1) [(0, 20)]).log.length ≤ 1) ∧
      (custom_minimize 5 cexObj [10] (some 1) [(0, 20)]).log.length = 3 := by
  decide

/-- C7: `custom_minimize` on `f([p]) = (p-113)²` with guess `[130]`, bounds
`[(80, 140)]` and no budget terminates (the loop exits on a pass with no
improvement, never because fuel ran out, for any fuel of at least 40
passes) and returns `[113]`. -/
theorem claim_C7_converges (fuel : Nat) (h : 40 ≤ fuel) :
    (custom_minimize fuel fQuad [130] none [(80, 140)]).best = [113] ∧
      finished (custom_minimize fuel fQuad [130] none [(80, 140)]) := by
  have h40 : finished (custom_minimize 40 fQuad [130] none [(80, 140)]) :=
    Or.inl (by decide)
  rw [custom_minimize_fuel_mono h fQuad [130] none [(80, 140)] h40]
  exact ⟨by decide, h40⟩

/-- Witness for C7, instantiated at fuel 40. -/
theorem claim_C7_converges_witness :
    40 ≤ 40 ∧ (custom_minimize 40 fQuad [130] none [(80, 140)]).best = [113] :=
  ⟨le_refl 40, (claim_C7_converges 40 (le_refl 40)).1⟩

theorem mem_intRange {lo hi x : Int} : x ∈ intRange lo hi ↔ lo ≤ x ∧ x ≤ hi := by
  unfold intRange
  simp only [List.mem_map, List.mem_range]
  constructor
  · rintro ⟨k, hk, rfl⟩
    omega
  · rintro ⟨h1, h2⟩
    exact ⟨(x - lo).toNat, by omega, by omega⟩

theorem mem_candFrom (guess : List Int) (bounds : List (Int × Int)) :
    ∀ (k d : Nat) (v : List Int),
      v ∈ candFrom guess bounds d k ↔
        v.length = k ∧ ∀ i < k, v.getD i 0 ∈ coordSet guess bounds (d + i) := by
  intro k
  induction k with
  | zero =>
    intro d v
    constructor
    · intro hv
      simp only [candFrom, List.mem_singleton] at hv
      subst hv
      exact ⟨rfl, fun i hi => absurd hi (Nat.not_lt_zero i)⟩
    · rintro ⟨hl, _⟩
      have hv : v = [] := List.length_eq_zero.mp hl
      subst hv
      simp [candFrom]
  | succ k ih =>
    intro d v
    constructor
    · intro hv
      simp only [candFrom, List.mem_flatMap, List.mem_map] at hv
      obtain ⟨x, hx, w, hw, rfl⟩ := hv
      obtain ⟨hwl, hwc⟩ := (ih (d + 1) w).mp hw
      refine ⟨by simp [hwl], ?_⟩
      intro i hi
      cases i with
      | zero => simpa using hx
      | succ j =>
        have hj : j < k := by omega
        have hco := hwc j hj
        rw [List.getD_cons_succ]
        have he : d + 1 + j = d + (j + 1) := by omega
        rw [he] at hco
        exact hco
    · rintro ⟨hl, hc⟩
      cases v with
      | nil => exact absurd hl (by simp)
      | cons x w =>
        simp only [candFrom, List.mem_flatMap, List.mem_map]
        refine ⟨x, ?_, w, ?_, rfl⟩
        · have hx := hc 0 (Nat.succ_pos k)
          simpa using hx
        · refine (ih (d + 1) w).mpr ⟨by simpa using hl, ?_⟩
          intro j hj
          have hco := hc (j + 1) (by omega)
          rw [List.getD_cons_succ] at hco
          have he : d + (j + 1) = d + 1 + j := by omega
          rw [he] at hco
          exact hco

theorem mem_cands {guess : List Int} {bounds : List (Int × Int)} {v : List Int} :
    v ∈ cands guess bounds ↔ GoodVec guess bounds v := by
  unfold cands GoodVec
  rw [mem_candFrom]
  simp only [Nat.zero_add]

theorem getD_set_self (l : List Int) (i : Nat) (a : Int) (h : i < l.length) :
    (l.set i a).getD i 0 = a := by
  rw [List.getD_eq_getElem?_getD, List.getElem?_set_self (by simpa using h)]
  simp

theorem getD_set_ne (l : List Int) {i j : Nat} (a : Int) (h : i ≠ j) :
    (l.set i a).getD j 0 = l.getD j 0 := by
  rw [List.getD_eq_getElem?_getD, List.getElem?_set_ne h, ← List.getD_eq_getElem?_getD]

theorem boxInv_tryStep {α : Type} [LinearOrder α] {guess : List Int}
    {bounds : List (Int × Int)} (f : List Int → α) {dim : Nat} (step : Int)
    (hdim : dim < guess.length) {s : OptState α} (h : BoxInv guess bounds s) :
    BoxInv guess bounds (tryStep f bounds dim step s) := by
  unfold tryStep
  split
  · rename_i hb
    split
    · exact h
    · rename_i hmem
      have htest : GoodVec guess bounds (s.best.set dim step) := by
        refine ⟨?_, ?_⟩
        · rw [List.length_set]
          exact h.1.1
        · intro i hi
          by_cases hij : dim = i
          · subst hij
            rw [getD_set_self _ _ _ (by rw [h.1.1]; exact hdim)]
            exact List.mem_cons_of_mem _ (mem_intRange.mpr hb)
          · rw [getD_set_ne _ _ hij]
            exact h.1.2 i hi
      have htested : ∀ v ∈ s.tested ++ [s.best.set dim step], GoodVec guess bounds v := by
        intro v hv
        rcases List.mem_append.mp hv with hv | hv
        · exact h.2.1 v hv
        · rw [List.mem_singleton] at hv
          subst hv
          exact htest
      have hnd : (s.tested ++ [s.best.set dim step]).Nodup :=
        ((List.perm_append_singleton _ _).nodup_iff).mpr (List.nodup_cons.mpr ⟨hmem, h.2.2⟩)
      split
      · exact ⟨htest, htested, hnd⟩
      · exact ⟨h.1, htested, hnd⟩
  · exact h

theorem boxInv_doDim {α : Type} [LinearOrder α] {guess : List Int}
    {bounds : List (Int × Int)} (mfc : Option Nat) (f : List Int → α) {dim : Nat}
    (hdim : dim < guess.length) {s : OptState α} (h : BoxInv guess bounds s) :
    BoxInv guess bounds (doDim mfc f bounds dim s) := by
  obtain ⟨hbt, _, _, hbb, _⟩ := budgetCheck_fields mfc (tryStep f bounds dim
    (s.best.getD dim 0 + 1) (tryStep f bounds dim (s.best.getD dim 0 - 1) s))
  have h2 : BoxInv guess bounds (tryStep f bounds dim (s.best.getD dim 0 + 1)
      (tryStep f bounds dim (s.best.getD dim 0 - 1) s)) :=
    boxInv_tryStep f _ hdim (boxInv_tryStep f _ hdim h)
  unfold doDim
  refine ⟨?_, ?_, ?_⟩
  · rw [hbb]
    exact h2.1
  · rw [hbt]
    exact h2.2.1
  · rw [hbt]
    exact h2.2.2

theorem foldl_inv_mem {β γ : Type} (P : β → Prop) (g : β → γ → β) :
    ∀ (l : List γ), (∀ b d, d ∈ l → P b → P (g b d)) → ∀ b, P b → P (l.foldl g b) := by
  intro l
  induction l with
  | nil =>
    intro _ b hb
    exact hb
  | cons d ds ih =>
    intro hg b hb
    exact ih (fun b' d' hd' => hg b' d' (List.mem_cons_of_mem d hd')) _
      (hg b d (List.mem_cons_self d ds) hb)

theorem boxInv_doPass {α : Type} [LinearOrder α] {guess : List Int}
    {bounds : List (Int × Int)} (mfc : Option Nat) (f : List Int → α) {s : OptState α}
    (h : BoxInv guess bounds s) :
    BoxInv guess bounds (doPass mfc f bounds guess.length s) := by
  unfold doPass
  refine foldl_inv_mem (BoxInv guess bounds) _ (List.range guess.length) ?_ s h
  intro b d hd hb
  split
  · exact hb
  · exact boxInv_doDim mfc f (List.mem_range.mp hd) hb

theorem tested_le_cands {α : Type} {guess : List Int} {bounds : List (Int × Int)}
    {s : OptState α} (h : BoxInv guess bounds s) :
    s.tested.length ≤ (cands guess bounds).length := by
  have hsub : s.tested.toFinset ⊆ (cands guess bounds).toFinset := by
    intro v hv
    rw [List.mem_toFinset] at hv ⊢
    exact mem_cands.mpr (h.2.1 v hv)
  calc s.tested.length = s.tested.toFinset.card := (List.toFinset_card_of_nodup h.2.2).symm
    _ ≤ (cands guess bounds).toFinset.card := Finset.card_le_card hsub
    _ ≤ (cands guess bounds).length := List.toFinset_card_le _

/-! Growth: every pass that ends with `improved` set has evaluated (hence
memoized) at least one previously untested vector. -/

theorem tryStep_tested_mono {α : Type} [LinearOrder α] (f : List Int → α)
    (bounds : List (Int × Int)) (dim : Nat) (step : Int) (s : OptState α) :
    s.tested.length ≤ (tryStep f bounds dim step s).tested.length := by
  rcases tryStep_cases f bounds dim step s with ⟨ht, _, _⟩ | ⟨t, _, ht, _, _⟩
  · rw [ht]
  · rw [ht, List.length_append]
    omega

theorem tryStep_improved_flag {α : Type} [LinearOrder α] (f : List Int → α)
    (bounds : List (Int × Int)) (dim : Nat) (step : Int) (s : OptState α) :
    (tryStep f bounds dim step s).improved = true →
      s.improved = true ∨
        (tryStep f bounds dim step s).tested.length = s.tested.length + 1 := by
  unfold tryStep
  split
  · split
    · exact fun h => Or.inl h
    · split
      · intro _
        right
        rw [List.length_append]
        rfl
      · exact fun h => Or.inl h
  · exact fun h => Or.inl h

theorem doDim_tested_mono {α : Type} [LinearOrder α] (mfc : Option Nat) (f : List Int → α)
    (bounds : List (Int × Int)) (dim : Nat) (s : OptState α) :
    s.tested.length ≤ (doDim mfc f bounds dim s).tested.length := by
  obtain ⟨ht, _, _⟩ := doDim_tested_log mfc f bounds dim s
  rw [ht]
  exact le_trans (tryStep_tested_mono f bounds dim (s.best.getD dim 0 - 1) s)
    (tryStep_tested_mono f bounds dim (s.best.getD dim 0 + 1) _)

theorem doDim_improved_flag {α : Type} [LinearOrder α] (mfc : Option Nat) (f : List Int → α)
    (bounds : List (Int × Int)) (dim : Nat) (s : OptState α) :
    (doDim mfc f bounds dim s).improved = true →
      s.improved = true ∨ s.tested.length < (doDim mfc f bounds dim s).tested.length := by
  intro himp
  obtain ⟨ht, _, _, _, hi⟩ := budgetCheck_fields mfc (tryStep f bounds dim
    (s.best.getD dim 0 + 1) (tryStep f bounds dim (s.best.getD dim 0 - 1) s))
  have hd : doDim mfc f bounds dim s = budgetCheck mfc (tryStep f bounds dim
      (s.best.getD dim 0 + 1) (tryStep f bounds dim (s.best.getD dim 0 - 1) s)) := rfl
  rw [hd] at himp ⊢
  rw [hi] at himp
  rw [ht]
  have hm1 := tryStep_tested_mono f bounds dim (s.best.getD dim 0 - 1) s
  have hm2 := tryStep_tested_mono f bounds dim (s.best.getD dim 0 + 1)
    (tryStep f bounds dim (s.best.getD dim 0 - 1) s)
  rcases tryStep_improved_flag f bounds dim (s.best.getD dim 0 + 1) _ himp with h2 | h2
  · rcases tryStep_improved_flag f bounds dim (s.best.getD dim 0 - 1) _ h2 with h1 | h1
    · exact Or.inl h1
    · right
      omega
  · right
    omega

theorem passStep_tested_mono {α : Type} [LinearOrder α] (mfc : Option Nat) (f : List Int → α)
    (bounds : List (Int × Int)) (st : OptState α) (d : Nat) :
    st.tested.length ≤ (if st.stop then st else doDim mfc f bounds d st).tested.length := by
  split
  · exact le_refl _
  · exact doDim_tested_mono mfc f bounds d st

theorem passStep_improved_flag {α : Type} [LinearOrder α] (mfc : Option Nat) (f : List Int → α)
    (bounds : List (Int × Int)) (st : OptState α) (d : Nat) :
    (if st.stop then st else doDim mfc f bounds d st).improved = true →
      st.improved = true ∨
        st.tested.length < (if st.stop then st else doDim mfc f bounds d st).tested.length := by
  split
  · exact fun h => Or.inl h
  · exact doDim_improved_flag mfc f bounds d st

theorem foldl_tested_mono {α : Type} [LinearOrder α] (mfc : Option Nat) (f : List Int → α)
    (bounds : List (Int × Int)) :
    ∀ (l : List Nat) (s : OptState α),
      s.tested.length ≤
        (l.foldl (fun st dim => if st.stop then st else doDim mfc f bounds dim st) s).tested.length := by
  intro l
  induction l with
  | nil => intro s; exact le_refl _
  | cons d ds ih =>
    intro s
    exact le_trans (passStep_tested_mono mfc f bounds s d) (ih _)

theorem foldl_growth {α : Type} [LinearOrder α] (mfc : Option Nat) (f : List Int → α)
    (bounds : List (Int × Int)) :
    ∀ (l : List Nat) (s : OptState α), s.improved = false →
      (l.foldl (fun st dim => if st.stop then st else doDim mfc f bounds dim st) s).improved = true →
      s.tested.length <
        (l.foldl (fun st dim => if st.stop then st else doDim mfc f bounds dim st) s).tested.length := by
  intro l
  induction l with
  | nil =>
    intro s h1 h2
    rw [List.foldl_nil] at h2
    rw [h1] at h2
    exact Bool.noConfusion h2
  | cons d ds ih =>
    intro s h1 h2
    rw [List.foldl_cons] at h2 ⊢
    by_cases himp : (if s.stop then s else doDim mfc f bounds d s).improved = true
    · have hgrow : s.tested.length < (if s.stop then s else doDim mfc f bounds d s).tested.length := by
        rcases passStep_improved_flag mfc f bounds s d himp with hcontra | hg
        · rw [h1] at hcontra
          exact Bool.noConfusion hcontra
        · exact hg
      exact lt_of_lt_of_le hgrow (foldl_tested_mono mfc f bounds ds _)
    · have himp' : (if s.stop then s else doDim mfc f bounds d s).improved = false := by
        cases hb : (if s.stop then s else doDim mfc f bounds d s).improved
        · rfl
        · exact absurd hb himp
      have hg := ih _ himp' h2
      have hm := passStep_tested_mono mfc f bounds s d
      omega

theorem doPass_growth {α : Type} [LinearOrder α] (mfc : Option Nat) (f : List Int → α)
    (bounds : List (Int × Int)) (n : Nat) (s : OptState α) (h1 : s.improved = false)
    (h2 : (doPass mfc f bounds n s).improved = true) :
    s.tested.length < (doPass mfc f bounds n s).tested.length :=
  foldl_growth mfc f bounds (List.range n) s h1 h2

theorem doPass_tested_mono {α : Type} [LinearOrder α] (mfc : Option Nat) (f : List Int → α)
    (bounds : List (Int × Int)) (n : Nat) (s : OptState α) :
    s.tested.length ≤ (doPass mfc f bounds n s).tested.length :=
  foldl_tested_mono mfc f bounds (List.range n) s

theorem finished_of_not_cond {α : Type} {s : OptState α}
    (h : ¬(s.improved = true ∧ s.stop = false)) : finished s := by
  cases hi : s.improved
  · exact Or.inl hi
  · cases hs : s.stop
    · exact absurd ⟨hi, hs⟩ h
    · exact Or.inr hs

theorem optLoop_finishes {α : Type} [LinearOrder α] (mfc : Option Nat) (f : List Int → α)
    (guess : List Int) (bounds : List (Int × Int)) :
    ∀ (fuel : Nat) (s : OptState α), BoxInv guess bounds s →
      (cands guess bounds).length + 1 ≤ fuel + s.tested.length →
      finished (optLoop mfc f bounds guess.length fuel s) := by
  intro fuel
  induction fuel with
  | zero =>
    intro s hinv hfuel
    exfalso
    have hle := tested_le_cands hinv
    omega
  | succ k ih =>
    intro s hinv hfuel
    by_cases hcond : s.improved = true ∧ s.stop = false
    · rw [optLoop_succ_run mfc f bounds guess.length k hcond]
      have hinv0 : BoxInv guess bounds ({ s with improved := false } : OptState α) := hinv
      have hinv' : BoxInv guess bounds
          (doPass mfc f bounds guess.length { s with improved := false }) :=
        boxInv_doPass mfc f hinv0
      by_cases himp :
          (doPass mfc f bounds guess.length ({ s with improved := false } : OptState α)).improved = true
      · have hgrow := doPass_growth mfc f bounds guess.length
          ({ s with improved := false } : OptState α) rfl himp
        refine ih _ hinv' ?_
        have hts : ({ s with improved := false } : OptState α).tested.length = s.tested.length := rfl
        omega
      · have himp' :
            (doPass mfc f bounds guess.length ({ s with improved := false } : OptState α)).improved = false := by
          cases hb : (doPass mfc f bounds guess.length ({ s with improved := false } : OptState α)).improved
          · rfl
          · exact absurd hb himp
        rw [optLoop_not_run mfc f bounds guess.length k
          (fun hpair => by rw [himp'] at hpair; exact Bool.noConfusion hpair.1)]
        exact Or.inl himp'
    · rw [optLoop_not_run mfc f bounds guess.length (k + 1) hcond]
      exact finished_of_not_cond hcond

/-- C10: on any total objective, any integer guess and any bounds,
`custom_minimize` with `max_fun_calls = None` terminates: with fuel one more
than the size of the finite candidate box the while loop exits by its own
condition (a pass with no improvement — every improving pass memoizes at
least one new vector of the box), and adding fuel beyond that point does
not change the result. -/
theorem claim_C10_terminates {α : Type} [LinearOrder α] (f : List Int → α)
    (guess : List Int) (bounds : List (Int × Int)) :
    ∃ fuel, finished (custom_minimize fuel f guess none bounds) ∧
      ∀ fuel', fuel ≤ fuel' →
        custom_minimize fuel' f guess none bounds = custom_minimize fuel f guess none bounds := by
  refine ⟨(cands guess bounds).length + 1, ?_, ?_⟩
  · refine optLoop_finishes none f guess bounds _ (initState f guess) ?_ (by simp [initState])
    refine ⟨⟨rfl, ?_⟩, ?_, ?_⟩
    · intro i _
      exact List.mem_cons_self _ _
    · intro v hv
      exact absurd hv (List.not_mem_nil v)
    · exact List.nodup_nil
  · intro fuel' hf
    exact custom_minimize_fuel_mono hf f guess none bounds
      (optLoop_finishes none f guess bounds _ (initState f guess)
        ⟨⟨rfl, fun i _ => List.mem_cons_self _ _⟩,
         fun v hv => absurd hv (List.not_mem_nil v), List.nodup_nil⟩
        (by simp [initState]))

/-! ### Shape and access lemmas -/

theorem getD_map_range {β : Type} (n : Nat) (f : Nat → β) (dflt : β) (i : Nat)
    (hi : i < n) : ((List.range n).map f).getD i dflt = f i := by
  rw [List.getD_eq_getElem?_getD, List.getElem?_map, List.getElem?_range hi]
  rfl

theorem getD_map_range_ge {β : Type} (n : Nat) (f : Nat → β) (dflt : β) (i : Nat)
    (hi : n ≤ i) : ((List.range n).map f).getD i dflt = dflt := by
  apply List.getD_eq_default
  simpa using hi

theorem gget_nat (g : Grid) (i j : Nat) :
    gget g i j = (g.getD i []).getD j 0 := by
  unfold gget
  rw [if_pos ⟨Int.natCast_nonneg i, Int.natCast_nonneg j⟩, Int.toNat_natCast,
    Int.toNat_natCast]

theorem filter_length (g : Grid) : (filter_lone_pixels g).length = g.length := by
  unfold filter_lone_pixels
  rw [List.length_map, List.length_range]

theorem filter_row (g : Grid) (i : Nat) (hi : i < g.length) :
    (filter_lone_pixels g).getD i [] =
      (List.range (g.getD i []).length).map (fun (j : Nat) =>
        if isSE g i j ∧ 1 < nbhdCount g i j then 2 else 0) := by
  unfold filter_lone_pixels
  rw [getD_map_range _ _ _ _ hi]

theorem filter_row_length (g : Grid) (i : Nat) (hi : i < g.length) :
    ((filter_lone_pixels g).getD i []).length = (g.getD i []).length := by
  rw [filter_row g i hi, List.length_map, List.length_range]

theorem isSE_pos (g : Grid) {i j : Int} (h : isSE g i j = true) : 0 ≤ i ∧ 0 ≤ j := by
  unfold isSE gget at h
  by_contra hc
  rw [if_neg hc] at h
  exact absurd (beq_iff_eq.mp h) (by omega)

theorem isSE_bounds (g : Grid) {i j : Nat} (h : isSE g i j = true) :
    i < g.length ∧ j < (g.getD i []).length := by
  unfold isSE at h
  rw [gget_nat] at h
  have hval : (g.getD i []).getD j 0 = 2 := beq_iff_eq.mp h
  constructor
  · by_contra hc
    have hrow : g.getD i [] = [] := List.getD_eq_default _ _ (by omega)
    rw [hrow] at hval
    simp at hval
  · by_contra hc
    have hv0 : (g.getD i []).getD j 0 = 0 := List.getD_eq_default _ _ (by omega)
    rw [hv0] at hval
    exact absurd hval (by decide)

/-- Master lemma: a pixel of the filtered image is SE iff it was SE and its
3×3 neighborhood in the input had more than one SE pixel; everything else
(including everything out of bounds) is 0. -/
theorem gget_filter (g : Grid) (i j : Int) :
    gget (filter_lone_pixels g) i j =
      if isSE g i j ∧ 1 < nbhdCount g i j then 2 else 0 := by
  by_cases h0 : 0 ≤ i ∧ 0 ≤ j
  · obtain ⟨hi0, hj0⟩ := h0
    have hi' : i = ((i.toNat : Nat) : Int) := (Int.toNat_of_nonneg hi0).symm
    have hj' : j = ((j.toNat : Nat) : Int) := (Int.toNat_of_nonneg hj0).symm
    rw [hi', hj', gget_nat]
    by_cases hil : i.toNat < g.length
    · rw [filter_row g i.toNat hil]
      by_cases hjl : j.toNat < (g.getD i.toNat []).length
      · rw [getD_map_range _ _ _ _ hjl]
      · rw [getD_map_range_ge _ _ _ _ (by omega)]
        have hse : isSE g i.toNat j.toNat = false := by
          cases hb : isSE g ↑i.toNat ↑j.toNat
          · rfl
          · exact absurd (isSE_bounds g hb).2 (by omega)
        rw [if_neg (fun hc => by rw [hse] at hc; exact Bool.noConfusion hc.1)]
    · have hrow : (filter_lone_pixels g).getD i.toNat [] = [] := by
        apply List.getD_eq_default
        rw [filter_length]
        omega
      rw [hrow]
      have hse : isSE g i.toNat j.toNat = false := by
        cases hb : isSE g ↑i.toNat ↑j.toNat
        · rfl
        · exact absurd (isSE_bounds g hb).1 (by omega)
      rw [if_neg (fun hc => by rw [hse] at hc; exact Bool.noConfusion hc.1)]
      rfl
  · have h1 : gget (filter_lone_pixels g) i j = 0 := by
      unfold gget
      rw [if_neg h0]
    have h2 : isSE g i j = false := by
      cases hb : isSE g i j
      · rfl
      · exact absurd (isSE_pos g hb) h0
    rw [h1, if_neg (fun hc => by rw [h2] at hc; exact Bool.noConfusion hc.1)]

theorem isSE_filter (g : Grid) (i j : Int) :
    isSE (filter_lone_pixels g) i j = true ↔
      isSE g i j = true ∧ 1 < nbhdCount g i j := by
  have hval := gget_filter g i j
  constructor
  · intro h
    have h2 : gget (filter_lone_pixels g) i j = 2 := beq_iff_eq.mp h
    rw [hval] at h2
    by_contra hc
    rw [if_neg hc] at h2
    exact absurd h2 (by decide)
  · intro h
    show (gget (filter_lone_pixels g) i j == 2) = true
    rw [hval, if_pos h]
    rfl

/-- An SE pixel has neighborhood count above one iff one of its eight
neighbors is SE too (the pixel itself always contributes exactly one). -/
theorem nbhdCount_split (g : Grid) (i j : Int) (hse : isSE g i j = true) :
    nbhdCount g i j =
      1 + (offsets8.filter (fun p => isSE g (i + p.1) (j + p.2))).length := by
  unfold nbhdCount offsets9
  rw [List.filter_cons]
  split
  · rw [List.length_cons]
    omega
  · rename_i hcond
    exfalso
    apply hcond
    show isSE g (i + (0, 0).1) (j + (0, 0).2) = true
    simpa using hse

theorem nbhd_gt_one_iff (g : Grid) (i j : Int) (hse : isSE g i j = true) :
    1 < nbhdCount g i j ↔ ∃ p ∈ offsets8, isSE g (i + p.1) (j + p.2) = true := by
  rw [nbhdCount_split g i j hse]
  constructor
  · intro h
    have hpos : 0 < (offsets8.filter (fun p => isSE g (i + p.1) (j + p.2))).length := by
      omega
    obtain ⟨p, hp⟩ := List.exists_mem_of_length_pos hpos
    have hm := List.mem_filter.mp hp
    exact ⟨p, hm.1, hm.2⟩
  · rintro ⟨p, hp, hpse⟩
    have hmem : p ∈ offsets8.filter (fun q => isSE g (i + q.1) (j + q.2)) :=
      List.mem_filter.mpr ⟨hp, hpse⟩
    have hlen := List.length_pos.mpr (List.ne_nil_of_mem hmem)
    omega

/-- Every offset in `offsets8` has its negation in `offsets8`. -/
theorem offsets8_neg {p : Int × Int} (hp : p ∈ offsets8) : (-p.1, -p.2) ∈ offsets8 := by
  fin_cases hp <;> decide

theorem offsets8_ne_zero {p : Int × Int} (hp : p ∈ offsets8) : p ≠ (0, 0) := by
  fin_cases hp <;> decide

/-- A surviving pixel's SE neighbor in the input survives the filter too:
its own neighborhood contains itself and the surviving pixel. -/
theorem neighbor_survives (g : Grid) (i j : Int) (p : Int × Int)
    (hp : p ∈ offsets8) (hse : isSE g i j = true)
    (hq : isSE g (i + p.1) (j + p.2) = true) :
    isSE (filter_lone_pixels g) (i + p.1) (j + p.2) = true := by
  rw [isSE_filter]
  refine ⟨hq, ?_⟩
  rw [nbhd_gt_one_iff g _ _ hq]
  refine ⟨(-p.1, -p.2), offsets8_neg hp, ?_⟩
  have e1 : i + p.1 + (-p.1, -p.2).1 = i := by
    simp
  have e2 : j + p.2 + (-p.1, -p.2).2 = j := by
    simp
  rw [e1, e2]
  exact hse

/-! ### Claim C6: the noise filter is idempotent -/

/-- On the filtered image, filtering again changes no pixel: a surviving
pixel still has a surviving neighbor, and removed pixels stay removed. -/
theorem gget_filter_idem (g : Grid) (i j : Int) :
    gget (filter_lone_pixels (filter_lone_pixels g)) i j =
      gget (filter_lone_pixels g) i j := by
  conv_lhs => rw [gget_filter]
  by_cases h : isSE (filter_lone_pixels g) i j = true
  · have hg := (isSE_filter g i j).mp h
    obtain ⟨p, hp, hq⟩ := (nbhd_gt_one_iff g i j hg.1).mp hg.2
    have hqF := neighbor_survives g i j p hp hg.1 hq
    rw [if_pos ⟨h, (nbhd_gt_one_iff _ i j h).mpr ⟨p, hp, hqF⟩⟩]
    exact (beq_iff_eq.mp h).symm
  · rw [if_neg (fun hc => h hc.1)]
    rw [gget_filter g i j]
    rw [if_neg (fun hc => h ((isSE_filter g i j).mpr hc))]

/-- Two grids with the same shape and the same pixel values are equal. -/
theorem grid_eq_of_shape_gget (G1 G2 : Grid) (hlen : G1.length = G2.length)
    (hrow : ∀ i, i < G1.length → (G1.getD i []).length = (G2.getD i []).length)
    (hgg : ∀ i j : Nat, gget G1 i j = gget G2 i j) : G1 = G2 := by
  apply List.ext_getElem?
  intro i
  by_cases hi : i < G1.length
  · have hrows : G1.getD i [] = G2.getD i [] := by
      apply List.ext_getElem?
      intro j
      by_cases hj : j < (G1.getD i []).length
      · have hj2 : j < (G2.getD i []).length := by
          rw [← hrow i hi]
          exact hj
        have e1 : (G1.getD i [])[j]? = some ((G1.getD i []).getD j 0) := by
          rw [List.getElem?_eq_getElem hj, List.getD_eq_getElem _ _ hj]
        have e2 : (G2.getD i [])[j]? = some ((G2.getD i []).getD j 0) := by
          rw [List.getElem?_eq_getElem hj2, List.getD_eq_getElem _ _ hj2]
        rw [e1, e2]
        have hv := hgg i j
        rw [gget_nat, gget_nat] at hv
        exact congrArg some hv
      · rw [List.getElem?_eq_none (by omega),
          List.getElem?_eq_none (by rw [← hrow i hi]; omega)]
    have hi2 : i < G2.length := by omega
    rw [List.getElem?_eq_getElem hi, List.getElem?_eq_getElem hi2]
    have h1 : G1[i] = G1.getD i [] := (List.getD_eq_getElem G1 [] hi).symm
    have h2 : G2[i] = G2.getD i [] := (List.getD_eq_getElem G2 [] hi2).symm
    rw [h1, h2, hrows]
  · rw [List.getElem?_eq_none (by omega), List.getElem?_eq_none (by omega : G2.length ≤ i)]

/-- C6: `filter_lone_pixels` is idempotent — applying the noise filter twice
yields the same LabelMap as applying it once. -/
theorem claim_C6_idempotent (g : Grid) :
    filter_lone_pixels (filter_lone_pixels g) = filter_lone_pixels g := by
  apply grid_eq_of_shape_gget
  · rw [filter_length, filter_length]
  · intro i hi
    rw [filter_length] at hi
    exact filter_row_length (filter_lone_pixels g) i hi
  · intro i j
    exact gget_filter_idem g i j

/-! ### Correctness of the propagation fixpoint -/

theorem mem_grow {pts s : List (Nat × Nat)} {q : Nat × Nat} :
    q ∈ grow pts s ↔ q ∈ pts ∧ (q ∈ s ∨ ∃ a ∈ s, adjB a q = true) := by
  unfold grow
  rw [List.mem_filter]
  simp [List.any_eq_true]

theorem grow_subset (pts s : List (Nat × Nat)) : grow pts s ⊆ pts :=
  fun q hq => (List.mem_filter.mp hq).1

theorem subset_grow {pts s : List (Nat × Nat)} (h : s ⊆ pts) : s ⊆ grow pts s :=
  fun q hq => mem_grow.mpr ⟨h hq, Or.inl hq⟩

theorem grow_congr {pts s t : List (Nat × Nat)} (h : ∀ x, x ∈ s ↔ x ∈ t) :
    grow pts s = grow pts t := by
  unfold grow
  apply List.filter_congr
  intro q _
  rw [Bool.eq_iff_iff]
  simp only [Bool.or_eq_true, decide_eq_true_eq, List.any_eq_true]
  constructor
  · rintro (hq | ⟨a, ha, hadj⟩)
    · exact Or.inl ((h q).mp hq)
    · exact Or.inr ⟨a, (h a).mp ha, hadj⟩
  · rintro (hq | ⟨a, ha, hadj⟩)
    · exact Or.inl ((h q).mpr hq)
    · exact Or.inr ⟨a, (h a).mpr ha, hadj⟩

theorem iter_subset_pts {pts : List (Nat × Nat)} {p : Nat × Nat} (hp : p ∈ pts) :
    ∀ k, (grow pts)^[k] [p] ⊆ pts := by
  intro k
  cases k with
  | zero =>
    intro q hq
    rw [Function.iterate_zero_apply, List.mem_singleton] at hq
    subst hq
    exact hp
  | succ m =>
    rw [Function.iterate_succ_apply']
    exact grow_subset pts _

theorem iter_mono_step {pts : List (Nat × Nat)} {p : Nat × Nat} (hp : p ∈ pts) (k : Nat) :
    (grow pts)^[k] [p] ⊆ (grow pts)^[k + 1] [p] := by
  rw [Function.iterate_succ_apply']
  exact subset_grow (iter_subset_pts hp k)

theorem iter_mono {pts : List (Nat × Nat)} {p : Nat × Nat} (hp : p ∈ pts) :
    ∀ {k m : Nat}, k ≤ m → (grow pts)^[k] [p] ⊆ (grow pts)^[m] [p] := by
  intro k m hkm
  induction m with
  | zero =>
    have hk0 : k = 0 := by omega
    subst hk0
    exact fun q hq => hq
  | succ m ih =>
    by_cases hk : k = m + 1
    · subst hk
      exact fun q hq => hq
    · exact fun q hq => iter_mono_step hp m (ih (by omega) hq)

/-- Soundness: every point produced by the propagation is chain-reachable. -/
theorem iter_sound {pts : List (Nat × Nat)} {p : Nat × Nat} (hp : p ∈ pts) :
    ∀ k q, q ∈ (grow pts)^[k] [p] → Reaches pts p q := by
  intro k
  induction k with
  | zero =>
    intro q hq
    rw [Function.iterate_zero_apply, List.mem_singleton] at hq
    subst hq
    exact Relation.ReflTransGen.refl
  | succ m ih =>
    intro q hq
    rw [Function.iterate_succ_apply'] at hq
    rcases mem_grow.mp hq with ⟨hqpts, hq' | ⟨a, ha, hadj⟩⟩
    · exact ih q hq'
    · exact Relation.ReflTransGen.tail (ih a ha) ⟨iter_subset_pts hp m ha, hqpts, hadj⟩

theorem reach_step {pts : List (Nat × Nat)} {p q r : Nat × Nat} {k : Nat}
    (hq : q ∈ (grow pts)^[k] [p]) (hr : r ∈ pts) (hadj : adjB q r = true) :
    r ∈ (grow pts)^[k + 1] [p] := by
  rw [Function.iterate_succ_apply']
  exact mem_grow.mpr ⟨hr, Or.inr ⟨q, hq, hadj⟩⟩

/-- Completeness, first half: every chain-reachable point appears at some
propagation round. -/
theorem reaches_mem_iter {pts : List (Nat × Nat)} {p q : Nat × Nat}
    (h : Reaches pts p q) : ∃ k, q ∈ (grow pts)^[k] [p] := by
  induction h with
  | refl => exact ⟨0, by rw [Function.iterate_zero_apply]; exact List.mem_singleton.mpr rfl⟩
  | tail _ hstep ih =>
    obtain ⟨k, hk⟩ := ih
    exact ⟨k + 1, reach_step hk hstep.2.1 hstep.2.2⟩

/-- If one round adds nothing, all later rounds are literally equal. -/
theorem iter_stable {pts : List (Nat × Nat)} {p : Nat × Nat} {k : Nat}
    (h : ∀ x, x ∈ (grow pts)^[k + 1] [p] ↔ x ∈ (grow pts)^[k] [p]) :
    ∀ m, k ≤ m → ∀ x, x ∈ (grow pts)^[m] [p] ↔ x ∈ (grow pts)^[k] [p] := by
  intro m
  induction m with
  | zero =>
    intro hm x
    have hk0 : k = 0 := by omega
    subst hk0
    exact Iff.rfl
  | succ m ih =>
    intro hm x
    by_cases hkm : k = m + 1
    · subst hkm
      exact Iff.rfl
    · have hkm' : k ≤ m := by omega
      have hgrow : (grow pts)^[m + 1] [p] = (grow pts)^[k + 1] [p] := by
        rw [Function.iterate_succ_apply', Function.iterate_succ_apply']
        exact grow_congr (ih hkm')
      rw [hgrow]
      exact h x

/-- The propagation stabilizes within `pts.length` rounds. -/
theorem iter_stabilizes {pts : List (Nat × Nat)} {p : Nat × Nat} (hp : p ∈ pts) :
    ∃ k, k < pts.length ∧
      ∀ x, x ∈ (grow pts)^[k + 1] [p] ↔ x ∈ (grow pts)^[k] [p] := by
  by_contra hc
  push_neg at hc
  have hstrict : ∀ k, k < pts.length →
      ((grow pts)^[k] [p]).toFinset ⊂ ((grow pts)^[k + 1] [p]).toFinset := by
    intro k hk
    obtain ⟨x, hx⟩ := hc k hk
    rcases hx with ⟨hin1, hnot0⟩ | ⟨hnot1, hin0⟩
    · constructor
      · intro y hy
        rw [List.mem_toFinset] at hy ⊢
        exact iter_mono_step hp k hy
      · intro hsub
        have hmem := hsub (List.mem_toFinset.mpr hin1)
        rw [List.mem_toFinset] at hmem
        exact hnot0 hmem
    · exact absurd (iter_mono_step hp k hin0) hnot1
  have hcard : ∀ k, k ≤ pts.length → k + 1 ≤ ((grow pts)^[k] [p]).toFinset.card := by
    intro k
    induction k with
    | zero =>
      intro _
      have h0 : ((grow pts)^[0] [p]).toFinset = {p} := by
        rw [Function.iterate_zero_apply]
        simp
      rw [h0, Finset.card_singleton]
    | succ m ih =>
      intro hm
      have h1 := ih (by omega)
      have h2 := Finset.card_lt_card (hstrict m (by omega))
      omega
  have hfin := hcard pts.length (le_refl _)
  have hsub2 : ((grow pts)^[pts.length] [p]).toFinset ⊆ pts.toFinset := by
    intro y hy
    rw [List.mem_toFinset] at hy ⊢
    exact iter_subset_pts hp pts.length hy
  have hle := le_trans (Finset.card_le_card hsub2) (List.toFinset_card_le pts)
  omega

/-- Completeness: every chain-reachable point is in the reach set. -/
theorem iter_complete {pts : List (Nat × Nat)} {p q : Nat × Nat} (hp : p ∈ pts)
    (h : Reaches pts p q) : q ∈ reachSet pts p := by
  obtain ⟨m, hm⟩ := reaches_mem_iter h
  obtain ⟨k, hk, hstab⟩ := iter_stabilizes hp
  unfold reachSet
  by_cases hmn : m ≤ pts.length
  · exact iter_mono hp hmn hm
  · have h1 := (iter_stable hstab m (by omega) q).mp hm
    exact (iter_stable hstab pts.length (by omega) q).mpr h1

/-- The decidable test equals chain reachability. -/
theorem reachB_iff {pts : List (Nat × Nat)} {p q : Nat × Nat} (hp : p ∈ pts) :
    reachB pts p q = true ↔ Reaches pts p q := by
  unfold reachB
  rw [decide_eq_true_eq]
  exact ⟨iter_sound hp pts.length q, iter_complete hp⟩

/-! ### Cluster labels and co-clustering -/

theorem sqDist_symm (p q : Nat × Nat) : sqDist p q = sqDist q p := by
  unfold sqDist
  ring

theorem adjB_symm (p q : Nat × Nat) : adjB p q = adjB q p := by
  unfold adjB
  rw [sqDist_symm]

theorem reaches_symm {pts : List (Nat × Nat)} {p q : Nat × Nat} (h : Reaches pts p q) :
    Reaches pts q p := by
  refine Relation.ReflTransGen.symmetric ?_ h
  intro a b hab
  exact ⟨hab.2.1, hab.1, by rw [adjB_symm]; exact hab.2.2⟩

theorem reaches_trans {pts : List (Nat × Nat)} {p q r : Nat × Nat}
    (h1 : Reaches pts p q) (h2 : Reaches pts q r) : Reaches pts p r :=
  Relation.ReflTransGen.trans h1 h2

theorem reachB_refl {pts : List (Nat × Nat)} {p : Nat × Nat} (hp : p ∈ pts) :
    reachB pts p p = true :=
  (reachB_iff hp).mpr Relation.ReflTransGen.refl

theorem repIdx_lt {pts : List (Nat × Nat)} {p : Nat × Nat} (hp : p ∈ pts) :
    repIdx pts p < pts.length :=
  List.findIdx_lt_length_of_exists ⟨p, hp, reachB_refl hp⟩

theorem repIdx_reaches {pts : List (Nat × Nat)} {p : Nat × Nat} (hp : p ∈ pts) :
    Reaches pts p (pts.getD (repIdx pts p) (0, 0)) := by
  have hlt := repIdx_lt hp
  have hfound : reachB pts p pts[repIdx pts p] = true :=
    List.findIdx_getElem (w := hlt)
  rw [List.getD_eq_getElem _ _ hlt]
  exact (reachB_iff hp).mp hfound

theorem findIdx_congr {β : Type} (p1 p2 : β → Bool) :
    ∀ (l : List β), (∀ x ∈ l, p1 x = p2 x) → l.findIdx p1 = l.findIdx p2 := by
  intro l
  induction l with
  | nil => intro _; rfl
  | cons a t ih =>
    intro h
    rw [List.findIdx_cons, List.findIdx_cons, h a (List.mem_cons_self a t),
      ih (fun x hx => h x (List.mem_cons_of_mem a hx))]

/-- Equal representatives exactly characterize chain reachability. -/
theorem reaches_iff_rep {pts : List (Nat × Nat)} {p q : Nat × Nat}
    (hp : p ∈ pts) (hq : q ∈ pts) :
    repIdx pts p = repIdx pts q ↔ Reaches pts p q := by
  constructor
  · intro h
    have h1 := repIdx_reaches hp
    have h2 := repIdx_reaches hq
    rw [h] at h1
    exact reaches_trans h1 (reaches_symm h2)
  · intro h
    unfold repIdx
    apply findIdx_congr
    intro x _
    rw [Bool.eq_iff_iff, reachB_iff hp, reachB_iff hq]
    exact ⟨fun hr => reaches_trans (reaches_symm h) hr, fun hr => reaches_trans h hr⟩

theorem mem_firstAppearanceAux (x : Nat) :
    ∀ (n : Nat) (l : List Nat), l.length ≤ n → (x ∈ firstAppearanceAux n l ↔ x ∈ l) := by
  intro n
  induction n with
  | zero =>
    intro l hl
    have hnil : l = [] := List.length_eq_zero.mp (by omega)
    subst hnil
    exact Iff.rfl
  | succ m ih =>
    intro l hl
    cases l with
    | nil => exact Iff.rfl
    | cons a t =>
      show x ∈ a :: firstAppearanceAux m (t.filter (fun y => y ≠ a)) ↔ x ∈ a :: t
      have hle : (t.filter (fun y => y ≠ a)).length ≤ m := by
        have hlf := List.length_filter_le (fun (y : Nat) => decide (y ≠ a)) t
        simp only [List.length_cons] at hl
        omega
      have hft := ih (t.filter (fun y => y ≠ a)) hle
      rw [List.mem_cons, List.mem_cons, hft, List.mem_filter]
      by_cases hxa : x = a
      · subst hxa
        simp
      · simp [hxa]

theorem mem_firstAppearance (l : List Nat) (x : Nat) :
    x ∈ firstAppearance l ↔ x ∈ l :=
  mem_firstAppearanceAux x l.length l (le_refl _)

theorem nodup_firstAppearanceAux :
    ∀ (n : Nat) (l : List Nat), l.length ≤ n → (firstAppearanceAux n l).Nodup := by
  intro n
  induction n with
  | zero =>
    intro l hl
    have hnil : l = [] := List.length_eq_zero.mp (by omega)
    subst hnil
    exact List.nodup_nil
  | succ m ih =>
    intro l hl
    cases l with
    | nil => exact List.nodup_nil
    | cons a t =>
      show (a :: firstAppearanceAux m (t.filter (fun y => y ≠ a))).Nodup
      have hle : (t.filter (fun y => y ≠ a)).length ≤ m := by
        have hlf := List.length_filter_le (fun (y : Nat) => decide (y ≠ a)) t
        simp only [List.length_cons] at hl
        omega
      refine List.nodup_cons.mpr ⟨?_, ih _ hle⟩
      intro hmem
      rw [mem_firstAppearanceAux _ _ _ hle, List.mem_filter] at hmem
      have hne : a ≠ a := by simpa using hmem.2
      exact hne rfl

theorem nodup_firstAppearance (l : List Nat) : (firstAppearance l).Nodup :=
  nodup_firstAppearanceAux l.length l (le_refl _)

theorem clusterLabels_getD {pts : List (Nat × Nat)} {i : Nat} (hi : i < pts.length) :
    (clusterLabels pts).getD i 0 =
      (firstAppearance (pts.map (repIdx pts))).indexOf (repIdx pts (pts.getD i (0, 0))) := by
  unfold clusterLabels
  have hi2 : i < ((pts.map (repIdx pts)).map
      (fun r => (firstAppearance (pts.map (repIdx pts))).indexOf r)).length := by
    rw [List.length_map, List.length_map]
    exact hi
  rw [List.getD_eq_getElem _ _ hi2, List.getElem_map, List.getElem_map]
  congr 1
  rw [List.getD_eq_getElem _ _ hi]

/-- C5 (amended): for at least two points, `find_clusters` places two points
of the filtered set in the same cluster (equal labels) iff they are
connected by a chain of points with consecutive pairwise distances strictly
below 2; on the integer grid this is exactly chains of 8-neighbor steps, so
a pair at exactly distance 2 (one empty pixel of gap) is NOT directly
linkable — sklearn merges only strictly below `distance_threshold`. -/
theorem claim_C5_linkage (pts : List (Nat × Nat)) (i j : Nat)
    (hlen : 2 ≤ pts.length) (hi : i < pts.length) (hj : j < pts.length) :
    ((findClustersLabels pts).getD i 0 = (findClustersLabels pts).getD j 0) ↔
      Reaches pts (pts.getD i (0, 0)) (pts.getD j (0, 0)) := by
  unfold findClustersLabels
  rw [if_neg (by omega)]
  rw [clusterLabels_getD hi, clusterLabels_getD hj]
  have hpi : pts.getD i (0, 0) ∈ pts := by
    rw [List.getD_eq_getElem _ _ hi]
    exact List.getElem_mem _
  have hpj : pts.getD j (0, 0) ∈ pts := by
    rw [List.getD_eq_getElem _ _ hj]
    exact List.getElem_mem _
  have hmem1 : repIdx pts (pts.getD i (0, 0)) ∈ firstAppearance (pts.map (repIdx pts)) := by
    rw [mem_firstAppearance]
    exact List.mem_map.mpr ⟨pts.getD i (0, 0), hpi, rfl⟩
  have hmem2 : repIdx pts (pts.getD j (0, 0)) ∈ firstAppearance (pts.map (repIdx pts)) := by
    rw [mem_firstAppearance]
    exact List.mem_map.mpr ⟨pts.getD j (0, 0), hpj, rfl⟩
  rw [List.indexOf_inj hmem1 hmem2]
  exact reaches_iff_rep hpi hpj

/-- Witness for the amended C5 at the two-point set `[(0,0), (0,1)]`. -/
theorem claim_C5_linkage_witness :
    2 ≤ ([(0, 0), (0, 1)] : List (Nat × Nat)).length ∧
    (((findClustersLabels [(0, 0), (0, 1)]).getD 0 0 =
        (findClustersLabels [(0, 0), (0, 1)]).getD 1 0) ↔
      Reaches [(0, 0), (0, 1)]
        (([(0, 0), (0, 1)] : List (Nat × Nat)).getD 0 (0, 0))
        (([(0, 0), (0, 1)] : List (Nat × Nat)).getD 1 (0, 0))) :=
  ⟨by decide, claim_C5_linkage [(0, 0), (0, 1)] 0 1 (by decide) (by decide) (by decide)⟩

/-- C5 (counterexample to the claim as stated): the labeled image
`[[2,2,0,2,2]]` passes the noise filter unchanged and yields the filtered
point set `[(0,0),(0,1),(0,3),(0,4)]`; the pair `(0,1)`, `(0,3)` is at
Euclidean distance exactly 2 (one empty pixel of gap), yet `find_clusters`
assigns the two dominoes different labels: pairs at distance exactly 2 are
not merged. -/
theorem claim_C5_cex :
    sePoints (filter_lone_pixels [[2, 2, 0, 2, 2]]) = [(0, 0), (0, 1), (0, 3), (0, 4)] ∧
    sqDist (0, 1) (0, 3) = 4 ∧
    (findClustersLabels [(0, 0), (0, 1), (0, 3), (0, 4)]).getD 1 0 ≠
      (findClustersLabels [(0, 0), (0, 1), (0, 3), (0, 4)]).getD 3 0 := by
  refine ⟨by decide, by decide, by decide⟩

/-! ### Claim C1: the degenerate-clustering fallback -/

/-- C1 (code behavior at the failing input): on a single filtered point the
clustering call raises (sklearn needs at least 2 samples) and the fallback
labels every point `1.0` (`np.ones`), not 0: the single cluster gets id 1,
the computed cluster count `max(labels) + 1` is 2, and no point has the
label 0 — the contiguous-ids-from-0 invariant is broken (downstream, Python
`range(2.0)` then raises TypeError). -/
theorem claim_C1_fallback :
    findClustersLabels [(5, 7)] = [1] ∧
    numClusters (findClustersLabels [(5, 7)]) = 2 ∧
    (0 : Nat) ∉ findClustersLabels [(5, 7)] ∧
    findClustersLabels [] = [] ∧ numClusters (findClustersLabels []) = 0 := by
  refine ⟨by decide, by decide, by decide, by decide, by decide⟩

theorem gaussTerm_pos {wgt sigma : ℝ} (mu x : ℝ) (hw : 0 < wgt) (hs : sigma ≠ 0) :
    0 < gaussTerm wgt mu sigma x := by
  unfold gaussTerm
  have h1 : 0 < Real.sqrt (2 * Real.pi * sigma ^ 2) :=
    Real.sqrt_pos.mpr (by positivity)
  positivity

theorem ratio_lt_of_lt {b g c : ℝ} (hg : 0 < g) (hb : 0 < b) (h : b < c * g) :
    b / (g + b) < c := by
  have hgb : 0 < g + b := by linarith
  rw [div_lt_iff hgb]
  have hc : 0 < c := by nlinarith
  nlinarith

theorem ratio_gt_of_lt {b g c : ℝ} (hg : 0 < g) (hb : 0 < b) (h : g < c * b) :
    1 - c < b / (g + b) := by
  have hgb : 0 < g + b := by linarith
  rw [lt_div_iff hgb]
  have hc : 0 < c := by nlinarith
  nlinarith

/-- A convenient lower bound: `exp (242/25) > 23` and `exp 242 > 45000`. -/
theorem exp_bound_aux : (23 : ℝ) < Real.exp (242 / 25) ∧ (45000 : ℝ) < Real.exp 242 := by
  have h1 : (2.7 : ℝ) < Real.exp 1 := by
    have h := Real.exp_one_gt_d9
    norm_num at h ⊢
    linarith
  have hpow : ∀ n : ℕ, n ≠ 0 → (2.7 : ℝ) ^ n < Real.exp n := by
    intro n hn
    have h2 : (2.7 : ℝ) ^ n < Real.exp 1 ^ n := pow_lt_pow_left₀ h1 (by norm_num) hn
    have h3 : Real.exp 1 ^ n = Real.exp n := by
      rw [← Real.exp_nat_mul]
      norm_num
    rw [h3] at h2
    exact h2
  constructor
  · have h4 := hpow 4 (by norm_num)
    have h5 : Real.exp 4 ≤ Real.exp (242 / 25) := Real.exp_le_exp.mpr (by norm_num)
    have h6 : (23 : ℝ) < 2.7 ^ 4 := by norm_num
    have h7 : ((4 : ℕ) : ℝ) = (4 : ℝ) := by norm_num
    rw [h7] at h4
    linarith
  · have h4 := hpow 12 (by norm_num)
    have h5 : Real.exp 12 ≤ Real.exp 242 := Real.exp_le_exp.mpr (by norm_num)
    have h6 : (45000 : ℝ) < 2.7 ^ 12 := by norm_num
    have h7 : ((12 : ℕ) : ℝ) = (12 : ℝ) := by norm_num
    rw [h7] at h4
    linarith

theorem sqrt_two_pi_pos : 0 < Real.sqrt (2 * Real.pi) :=
  Real.sqrt_pos.mpr (by positivity)

theorem sqrt_two_pi_25 :
    Real.sqrt (2 * Real.pi * (5 : ℝ) ^ 2) = 5 * Real.sqrt (2 * Real.pi) := by
  rw [show 2 * Real.pi * (5 : ℝ) ^ 2 = (5 : ℝ) ^ 2 * (2 * Real.pi) by ring,
    Real.sqrt_mul (by norm_num), Real.sqrt_sq (by norm_num)]

theorem gaussTerm_good_at8 :
    gaussTerm 0.9 8 1 8 = 0.9 / Real.sqrt (2 * Real.pi) := by
  unfold gaussTerm
  have e1 : -((8 : ℝ) - 8) ^ 2 / (2 * 1 ^ 2) = 0 := by norm_num
  rw [e1, Real.exp_zero]
  norm_num

theorem gaussTerm_bad_at8 :
    gaussTerm (1 - 0.9) 30 5 8 =
      0.1 / (5 * Real.sqrt (2 * Real.pi)) * Real.exp (-(242 / 25 : ℝ)) := by
  unfold gaussTerm
  have e1 : -((8 : ℝ) - 30) ^ 2 / (2 * 5 ^ 2) = -(242 / 25 : ℝ) := by norm_num
  rw [e1, sqrt_two_pi_25]
  norm_num

theorem gaussTerm_good_at30 :
    gaussTerm 0.9 8 1 30 = 0.9 / Real.sqrt (2 * Real.pi) * Real.exp (-(242 : ℝ)) := by
  unfold gaussTerm
  have e1 : -((30 : ℝ) - 8) ^ 2 / (2 * 1 ^ 2) = -(242 : ℝ) := by norm_num
  rw [e1]
  norm_num

theorem gaussTerm_bad_at30 :
    gaussTerm (1 - 0.9) 30 5 30 = 0.1 / (5 * Real.sqrt (2 * Real.pi)) := by
  unfold gaussTerm
  have e1 : -((30 : ℝ) - 30) ^ 2 / (2 * 5 ^ 2) = 0 := by norm_num
  rw [e1, Real.exp_zero, sqrt_two_pi_25]
  norm_num

/-- C8: with the fixed mixture (g=0.9, N(8,1) good, N(30,5) bad), the
outlier probability lies in [0,1] for every real width; at width 8 it is
below 1/1000 (near 0) and at width 30 it is above 1 - 1/1000 (near 1). -/
theorem claim_C8_outlier_bounds :
    (∀ w : ℝ, 0 ≤ outlier_probability 0.9 8 1 30 5 w ∧
        outlier_probability 0.9 8 1 30 5 w ≤ 1) ∧
    outlier_probability 0.9 8 1 30 5 8 < 1 / 1000 ∧
    1 - 1 / 1000 < outlier_probability 0.9 8 1 30 5 30 := by
  have hs := sqrt_two_pi_pos
  obtain ⟨hE1, hE2⟩ := exp_bound_aux
  refine ⟨?_, ?_, ?_⟩
  · intro w
    have hG := @gaussTerm_pos 0.9 1 8 w (by norm_num) (by norm_num)
    have hB := @gaussTerm_pos (1 - 0.9) 5 30 w (by norm_num) (by norm_num)
    unfold outlier_probability
    constructor
    · exact div_nonneg hB.le (by linarith)
    · rw [div_le_one (by linarith)]
      linarith
  · have hG := @gaussTerm_pos 0.9 1 8 (8 : ℝ) (by norm_num) (by norm_num)
    have hB := @gaussTerm_pos (1 - 0.9) 5 30 (8 : ℝ) (by norm_num) (by norm_num)
    unfold outlier_probability
    refine ratio_lt_of_lt hG hB ?_
    rw [gaussTerm_good_at8, gaussTerm_bad_at8]
    have hexp : Real.exp (-(242 / 25 : ℝ)) < 1 / 23 := by
      rw [Real.exp_neg]
      rw [show (1 : ℝ) / 23 = (23 : ℝ)⁻¹ by norm_num]
      exact inv_lt_inv_of_lt (by norm_num) hE1
    have hmul := mul_lt_mul_of_pos_right hexp hs
    have hsne : Real.sqrt (2 * Real.pi) ≠ 0 := ne_of_gt hs
    have h2 : (1 : ℝ) / 1000 * (0.9 / Real.sqrt (2 * Real.pi)) =
        0.9 / (1000 * Real.sqrt (2 * Real.pi)) := by
      field_simp
    rw [h2, div_mul_eq_mul_div, div_lt_div_iff (by positivity) (by positivity)]
    nlinarith [Real.exp_pos (-(242 / 25 : ℝ))]
  · have hG := @gaussTerm_pos 0.9 1 8 (30 : ℝ) (by norm_num) (by norm_num)
    have hB := @gaussTerm_pos (1 - 0.9) 5 30 (30 : ℝ) (by norm_num) (by norm_num)
    unfold outlier_probability
    refine ratio_gt_of_lt hG hB ?_
    rw [gaussTerm_good_at30, gaussTerm_bad_at30]
    have hexp : Real.exp (-(242 : ℝ)) < 1 / 45000 := by
      rw [Real.exp_neg]
      rw [show (1 : ℝ) / 45000 = (45000 : ℝ)⁻¹ by norm_num]
      exact inv_lt_inv_of_lt (by norm_num) hE2
    have hmul := mul_lt_mul_of_pos_right hexp hs
    have hsne : Real.sqrt (2 * Real.pi) ≠ 0 := ne_of_gt hs
    have h2 : (1 : ℝ) / 1000 * (0.1 / (5 * Real.sqrt (2 * Real.pi))) =
        0.1 / (5000 * Real.sqrt (2 * Real.pi)) := by
      field_simp
      left
      ring
    rw [h2, div_mul_eq_mul_div, div_lt_div_iff (by positivity) (by positivity)]
    nlinarith [Real.exp_pos (-(242 : ℝ))]

/-! ## Cluster groups, sizes and lengths -/

theorem isSE_lt {g : Grid} {a b : Nat} (h : isSE g (a : Int) (b : Int) = true) :
    a < g.length ∧ b < (g.getD a []).length := by
  have hval : gget g a b = 2 := beq_iff_eq.mp h
  unfold gget at hval
  rw [if_pos ⟨Int.natCast_nonneg a, Int.natCast_nonneg b⟩] at hval
  rw [Int.toNat_natCast, Int.toNat_natCast] at hval
  constructor
  · by_contra hc
    push_neg at hc
    have h1 : g.getD a [] = [] := List.getD_eq_default _ _ hc
    rw [h1, List.getD_nil] at hval
    exact absurd hval (by decide)
  · by_contra hc
    push_neg at hc
    have h1 : (g.getD a []).getD b 0 = 0 := List.getD_eq_default _ _ hc
    rw [h1] at hval
    exact absurd hval (by decide)

theorem mem_sePoints (g : Grid) (p : Nat × Nat) :
    p ∈ sePoints g ↔ isSE g p.1 p.2 = true := by
  obtain ⟨a, b⟩ := p
  unfold sePoints
  rw [List.mem_flatMap]
  constructor
  · rintro ⟨i, _, hmem⟩
    rw [List.mem_filterMap] at hmem
    obtain ⟨j, _, hopt⟩ := hmem
    by_cases hse : isSE g i j = true
    · rw [if_pos hse] at hopt
      obtain ⟨rfl, rfl⟩ := Prod.mk.injEq i j a b ▸ Option.some.inj hopt
      exact hse
    · rw [if_neg hse] at hopt
      exact absurd hopt (by simp)
  · intro hse
    obtain ⟨ha, hb⟩ := isSE_lt hse
    refine ⟨a, List.mem_range.mpr ha, ?_⟩
    rw [List.mem_filterMap]
    exact ⟨b, List.mem_range.mpr hb, by rw [if_pos hse]⟩

theorem clusterLabels_eq_map (pts : List (Nat × Nat)) :
    clusterLabels pts = pts.map (labelOf pts) := by
  unfold clusterLabels labelOf
  rw [List.map_map]
  rfl

theorem labelOf_eq_iff {pts : List (Nat × Nat)} {p q : Nat × Nat}
    (hp : p ∈ pts) (hq : q ∈ pts) :
    labelOf pts p = labelOf pts q ↔ Reaches pts p q := by
  unfold labelOf
  have hmem1 : repIdx pts p ∈ firstAppearance (pts.map (repIdx pts)) := by
    rw [mem_firstAppearance]
    exact List.mem_map.mpr ⟨p, hp, rfl⟩
  have hmem2 : repIdx pts q ∈ firstAppearance (pts.map (repIdx pts)) := by
    rw [mem_firstAppearance]
    exact List.mem_map.mpr ⟨q, hq, rfl⟩
  rw [List.indexOf_inj hmem1 hmem2]
  exact reaches_iff_rep hp hq

theorem labelOf_lt {pts : List (Nat × Nat)} {p : Nat × Nat} (hp : p ∈ pts) :
    labelOf pts p < (firstAppearance (pts.map (repIdx pts))).length := by
  unfold labelOf
  rw [List.indexOf_lt_length, mem_firstAppearance]
  exact List.mem_map.mpr ⟨p, hp, rfl⟩

theorem exists_labelOf_eq {pts : List (Nat × Nat)} {lab : Nat}
    (hlab : lab < (firstAppearance (pts.map (repIdx pts))).length) :
    ∃ p ∈ pts, labelOf pts p = lab := by
  have hmem : (firstAppearance (pts.map (repIdx pts)))[lab] ∈
      firstAppearance (pts.map (repIdx pts)) := List.getElem_mem _
  have hmem2 := (mem_firstAppearance _ _).mp hmem
  obtain ⟨p, hp, hrep⟩ := List.mem_map.mp hmem2
  refine ⟨p, hp, ?_⟩
  unfold labelOf
  rw [hrep]
  exact List.indexOf_getElem (nodup_firstAppearance _) lab hlab

theorem foldr_max_le {l : List Nat} {b : Nat} (h : ∀ x ∈ l, x ≤ b) :
    l.foldr max 0 ≤ b := by
  induction l with
  | nil => exact Nat.zero_le b
  | cons a t ih =>
    rw [List.foldr_cons]
    exact max_le (h a (List.mem_cons_self a t))
      (ih (fun x hx => h x (List.mem_cons_of_mem a hx)))

theorem le_foldr_max {l : List Nat} {x : Nat} (h : x ∈ l) : x ≤ l.foldr max 0 := by
  induction l with
  | nil => exact absurd h (List.not_mem_nil x)
  | cons a t ih =>
    rw [List.foldr_cons]
    rcases List.mem_cons.mp h with rfl | hx
    · exact le_max_left _ _
    · exact le_trans (ih hx) (le_max_right _ _)

theorem numClusters_eq_FA {pts : List (Nat × Nat)} (hne : pts ≠ []) :
    numClusters (clusterLabels pts) =
      (firstAppearance (pts.map (repIdx pts))).length := by
  have hlen : (clusterLabels pts).length = pts.length := by
    rw [clusterLabels_eq_map, List.length_map]
  have hpts : 0 < pts.length := List.length_pos.mpr hne
  obtain ⟨p0, hp0⟩ := List.exists_mem_of_length_pos hpts
  have hFApos : 0 < (firstAppearance (pts.map (repIdx pts))).length :=
    Nat.lt_of_le_of_lt (Nat.zero_le _) (labelOf_lt hp0)
  unfold numClusters
  rw [if_neg (by omega)]
  have hub : ∀ x ∈ clusterLabels pts,
      x ≤ (firstAppearance (pts.map (repIdx pts))).length - 1 := by
    intro x hx
    rw [clusterLabels_eq_map] at hx
    obtain ⟨p, hp, rfl⟩ := List.mem_map.mp hx
    have := labelOf_lt hp
    omega
  have hmax_le := foldr_max_le hub
  obtain ⟨p, hp, hlab⟩ := @exists_labelOf_eq pts
    ((firstAppearance (pts.map (repIdx pts))).length - 1) (by omega)
  have hmem : (firstAppearance (pts.map (repIdx pts))).length - 1 ∈ clusterLabels pts := by
    rw [clusterLabels_eq_map]
    exact List.mem_map.mpr ⟨p, hp, hlab⟩
  have hge := le_foldr_max hmem
  omega

theorem zip_map_self {β γ : Type} (F : β → γ) :
    ∀ l : List β, l.zip (l.map F) = l.map (fun a => (a, F a)) := by
  intro l
  induction l with
  | nil => rfl
  | cons a t ih =>
    simp only [List.map_cons, List.zip_cons_cons, ih]

theorem clusterGroup_eq_filter (pts : List (Nat × Nat)) (lab : Nat) :
    clusterGroup pts (clusterLabels pts) lab =
      pts.filter (fun p => labelOf pts p == lab) := by
  unfold clusterGroup
  rw [clusterLabels_eq_map, zip_map_self, List.filter_map, List.map_map]
  have hcomp : (Prod.fst ∘ fun a : Nat × Nat => (a, labelOf pts a)) = id := rfl
  rw [hcomp, List.map_id]
  rfl

theorem mem_clusterGroup {pts : List (Nat × Nat)} {lab : Nat} {q : Nat × Nat} :
    q ∈ clusterGroup pts (clusterLabels pts) lab ↔ q ∈ pts ∧ labelOf pts q = lab := by
  rw [clusterGroup_eq_filter, List.mem_filter]
  simp

theorem two_le_length_of_two_mem {β : Type} [DecidableEq β] {l : List β} {a b : β}
    (ha : a ∈ l) (hb : b ∈ l) (hne : a ≠ b) : 2 ≤ l.length := by
  have hsub : ({a, b} : Finset β) ⊆ l.toFinset := by
    intro x hx
    rw [List.mem_toFinset]
    rcases Finset.mem_insert.mp hx with rfl | hx
    · exact ha
    · rw [Finset.mem_singleton] at hx
      subst hx
      exact hb
  calc 2 = ({a, b} : Finset β).card := (Finset.card_pair hne).symm
    _ ≤ l.toFinset.card := Finset.card_le_card hsub
    _ ≤ l.length := List.toFinset_card_le l

theorem le_natMax {l : List Nat} {x : Nat} (h : x ∈ l) : x ≤ natMax l :=
  le_foldr_max h

theorem foldr_min_le_init (t : List Nat) (a : Nat) : t.foldr min a ≤ a := by
  induction t with
  | nil => exact le_refl a
  | cons x s ih =>
    rw [List.foldr_cons]
    exact le_trans (min_le_right _ _) ih

theorem foldr_min_le_mem {t : List Nat} {x : Nat} (a : Nat) (h : x ∈ t) :
    t.foldr min a ≤ x := by
  induction t with
  | nil => exact absurd h (List.not_mem_nil x)
  | cons y s ih =>
    rw [List.foldr_cons]
    rcases List.mem_cons.mp h with rfl | hx
    · exact min_le_left _ _
    · exact le_trans (min_le_right _ _) (ih hx)

theorem natMin_le {l : List Nat} {x : Nat} (h : x ∈ l) : natMin l ≤ x := by
  cases l with
  | nil => exact absurd h (List.not_mem_nil x)
  | cons a t =>
    show t.foldr min a ≤ x
    rcases List.mem_cons.mp h with rfl | hx
    · exact foldr_min_le_init t x
    · exact foldr_min_le_mem a hx

/-- A cluster with two distinct points has strictly positive length
(bounding-box diagonal), so the width `size / length` never divides by 0. -/
theorem find_length_pos {ps : List (Nat × Nat)} {p q : Nat × Nat}
    (hp : p ∈ ps) (hq : q ∈ ps) (hne : p ≠ q) : 0 < find_length ps := by
  unfold find_length
  apply Real.sqrt_pos.mpr
  have hgoal : 0 < (natMax (ps.map Prod.snd) - natMin (ps.map Prod.snd)) ^ 2 +
      (natMax (ps.map Prod.fst) - natMin (ps.map Prod.fst)) ^ 2 := by
    have hcases : p.1 ≠ q.1 ∨ p.2 ≠ q.2 := by
      by_contra hc
      push_neg at hc
      exact hne (Prod.ext hc.1 hc.2)
    rcases hcases with hno | hno
    · have h1 : p.1 ≤ natMax (ps.map Prod.fst) := le_natMax (List.mem_map.mpr ⟨p, hp, rfl⟩)
      have h2 : q.1 ≤ natMax (ps.map Prod.fst) := le_natMax (List.mem_map.mpr ⟨q, hq, rfl⟩)
      have h3 : natMin (ps.map Prod.fst) ≤ p.1 := natMin_le (List.mem_map.mpr ⟨p, hp, rfl⟩)
      have h4 : natMin (ps.map Prod.fst) ≤ q.1 := natMin_le (List.mem_map.mpr ⟨q, hq, rfl⟩)
      have hsq : 0 < (natMax (ps.map Prod.fst) - natMin (ps.map Prod.fst)) ^ 2 :=
        pow_pos (by omega) 2
      omega
    · have h1 : p.2 ≤ natMax (ps.map Prod.snd) := le_natMax (List.mem_map.mpr ⟨p, hp, rfl⟩)
      have h2 : q.2 ≤ natMax (ps.map Prod.snd) := le_natMax (List.mem_map.mpr ⟨q, hq, rfl⟩)
      have h3 : natMin (ps.map Prod.snd) ≤ p.2 := natMin_le (List.mem_map.mpr ⟨p, hp, rfl⟩)
      have h4 : natMin (ps.map Prod.snd) ≤ q.2 := natMin_le (List.mem_map.mpr ⟨q, hq, rfl⟩)
      have hsq : 0 < (natMax (ps.map Prod.snd) - natMin (ps.map Prod.snd)) ^ 2 :=
        pow_pos (by omega) 2
      omega
  exact_mod_cast hgoal

/-! ### Claim C9: no singleton survivors, no zero-length clusters -/

/-- Every survivor of the noise filter has a distinct surviving 8-neighbor. -/
theorem survivors_have_partner (g : Grid) (p : Nat × Nat)
    (hp : p ∈ sePoints (filter_lone_pixels g)) :
    ∃ q ∈ sePoints (filter_lone_pixels g), q ≠ p ∧ adjB p q = true := by
  have hse := (mem_sePoints _ p).mp hp
  have hF := (isSE_filter g p.1 p.2).mp hse
  obtain ⟨off, hoff, hq⟩ := (nbhd_gt_one_iff g p.1 p.2 hF.1).mp hF.2
  have hqF : isSE (filter_lone_pixels g) (↑p.1 + off.1) (↑p.2 + off.2) = true :=
    neighbor_survives g _ _ off hoff hF.1 hq
  have hpos := isSE_pos (filter_lone_pixels g) hqF
  refine ⟨((↑p.1 + off.1).toNat, (↑p.2 + off.2).toNat), ?_, ?_, ?_⟩
  · rw [mem_sePoints]
    show isSE (filter_lone_pixels g) ((((↑p.1 + off.1).toNat : Nat)) : Int)
      ((((↑p.2 + off.2).toNat : Nat)) : Int) = true
    rw [Int.toNat_of_nonneg hpos.1, Int.toNat_of_nonneg hpos.2]
    exact hqF
  · intro he
    have h8 := offsets8_ne_zero hoff
    apply h8
    have e1 : ((↑p.1 + off.1).toNat : Int) = ↑p.1 := by
      rw [congrArg (fun r : Nat × Nat => ((r.1 : Nat) : Int)) he]
    have e2 : ((↑p.2 + off.2).toNat : Int) = ↑p.2 := by
      rw [congrArg (fun r : Nat × Nat => ((r.2 : Nat) : Int)) he]
    rw [Int.toNat_of_nonneg hpos.1] at e1
    rw [Int.toNat_of_nonneg hpos.2] at e2
    have ho1 : off.1 = 0 := by omega
    have ho2 : off.2 = 0 := by omega
    exact Prod.ext ho1 ho2
  · unfold adjB sqDist
    rw [decide_eq_true_eq]
    show ((p.1 : Int) - ((↑p.1 + off.1).toNat : Int)) ^ 2 +
      ((p.2 : Int) - ((↑p.2 + off.2).toNat : Int)) ^ 2 < 4
    rw [Int.toNat_of_nonneg hpos.1, Int.toNat_of_nonneg hpos.2]
    have hb : off.1 ^ 2 + off.2 ^ 2 ≤ 2 := by
      fin_cases hoff <;> norm_num
    have he : ((p.1 : Int) - (↑p.1 + off.1)) ^ 2 + ((p.2 : Int) - (↑p.2 + off.2)) ^ 2 =
        off.1 ^ 2 + off.2 ^ 2 := by
      ring
    rw [he]
    omega

/-- C9: the filtered foreground is empty or has at least 2 points — every
surviving pixel retains a distinct surviving 8-neighbor — and in the
composed pipeline every cluster of the filtered points contains at least two
points and has strictly positive bounding-box length, so the width
computation `size / length` never divides by zero. -/
theorem claim_C9_no_singletons (g : Grid) :
    (sePoints (filter_lone_pixels g) = [] ∨ 2 ≤ (sePoints (filter_lone_pixels g)).length) ∧
    (∀ p ∈ sePoints (filter_lone_pixels g), ∃ q ∈ sePoints (filter_lone_pixels g),
      q ≠ p ∧ adjB p q = true) ∧
    (∀ lab, lab < numClusters (findClustersLabels (sePoints (filter_lone_pixels g))) →
      2 ≤ (clusterGroup (sePoints (filter_lone_pixels g))
            (findClustersLabels (sePoints (filter_lone_pixels g))) lab).length ∧
      find_length (clusterGroup (sePoints (filter_lone_pixels g))
        (findClustersLabels (sePoints (filter_lone_pixels g))) lab) ≠ 0) := by
  by_cases hnil : sePoints (filter_lone_pixels g) = []
  · refine ⟨Or.inl hnil, ?_, ?_⟩
    · intro p hp
      rw [hnil] at hp
      exact absurd hp (List.not_mem_nil p)
    · intro lab hlab
      rw [hnil] at hlab
      have hz : numClusters (findClustersLabels []) = 0 := rfl
      omega
  · have htwo : 2 ≤ (sePoints (filter_lone_pixels g)).length := by
      obtain ⟨p, hp⟩ := List.exists_mem_of_length_pos (List.length_pos.mpr hnil)
      obtain ⟨q, hq, hqne, _⟩ := survivors_have_partner g p hp
      exact two_le_length_of_two_mem hq hp hqne
    have hlabels : findClustersLabels (sePoints (filter_lone_pixels g)) =
        clusterLabels (sePoints (filter_lone_pixels g)) := by
      unfold findClustersLabels
      rw [if_neg (by omega)]
    refine ⟨Or.inr htwo, survivors_have_partner g, ?_⟩
    intro lab hlab
    rw [hlabels] at hlab ⊢
    rw [numClusters_eq_FA hnil] at hlab
    obtain ⟨p, hp, hplab⟩ := exists_labelOf_eq hlab
    obtain ⟨q, hq, hqne, hadj⟩ := survivors_have_partner g p hp
    have hqlab : labelOf (sePoints (filter_lone_pixels g)) q = lab := by
      rw [← hplab]
      exact ((labelOf_eq_iff hp hq).mpr
        (Relation.ReflTransGen.single ⟨hp, hq, hadj⟩)).symm
    have hpg : p ∈ clusterGroup (sePoints (filter_lone_pixels g))
        (clusterLabels (sePoints (filter_lone_pixels g))) lab :=
      mem_clusterGroup.mpr ⟨hp, hplab⟩
    have hqg : q ∈ clusterGroup (sePoints (filter_lone_pixels g))
        (clusterLabels (sePoints (filter_lone_pixels g))) lab :=
      mem_clusterGroup.mpr ⟨hq, hqlab⟩
    exact ⟨two_le_length_of_two_mem hqg hpg hqne,
      ne_of_gt (find_length_pos hpg hqg (fun he => hqne (he ▸ rfl)))⟩

/-- Witness for C9, instantiated at the 1×2 all-SE grid. -/
theorem claim_C9_witness :
    ((0, 0) ∈ sePoints (filter_lone_pixels [[2, 2]])) ∧
    (0 < numClusters (findClustersLabels (sePoints (filter_lone_pixels [[2, 2]])))) ∧
    (∃ q ∈ sePoints (filter_lone_pixels [[2, 2]]), q ≠ (0, 0) ∧ adjB (0, 0) q = true) ∧
    2 ≤ (clusterGroup (sePoints (filter_lone_pixels [[2, 2]]))
          (findClustersLabels (sePoints (filter_lone_pixels [[2, 2]]))) 0).length :=
  ⟨by decide, by decide,
   (claim_C9_no_singletons [[2, 2]]).2.1 (0, 0) (by decide),
   ((claim_C9_no_singletons [[2, 2]]).2.2 0 (by decide)).1⟩

theorem sum_map_div (l : List ℝ) (f : ℝ → ℝ) (c : ℝ) :
    (l.map (fun x => f x / c)).sum = (l.map f).sum / c := by
  induction l with
  | nil => simp
  | cons a t ih =>
    rw [List.map_cons, List.map_cons, List.sum_cons, List.sum_cons, ih, add_div]

theorem specVariance_eq_npVar (l : List ℝ) : specVariance l = npVar l := rfl

/-- C4 (amended): for every threshold vector and image, the pipeline's
chi-square equals the spec formula — 64.0 when zero clusters are accepted,
else `sum((width_i - 8)^2) / variance / acceptedCount` with the population
variance of the accepted widths and 1 substituted for a zero variance. The
spec's converse (64.0 only when zero clusters are accepted) is refuted
separately. -/
theorem claim_C4_value (par : List Int) (img : Grid) :
    cluster_image_chi (simple_lin_map par img) =
      spec_chi
        (acceptedWidths (sePoints (filter_lone_pixels (simple_lin_map par img)))
          (findClustersLabels (sePoints (filter_lone_pixels (simple_lin_map par img)))))
        (goodClusters (sePoints (filter_lone_pixels (simple_lin_map par img)))
          (findClustersLabels (sePoints (filter_lone_pixels (simple_lin_map par img))))).length := by
  unfold cluster_image_chi chi_square spec_chi
  by_cases h : acceptedWidths (sePoints (filter_lone_pixels (simple_lin_map par img)))
      (findClustersLabels (sePoints (filter_lone_pixels (simple_lin_map par img)))) = []
  · rw [if_pos h, if_pos h]
    norm_num
  · rw [if_neg h, if_neg h]
    rw [sum_map_div]
    simp only [specVariance_eq_npVar]

theorem chainAux_reaches {pts : List (Nat × Nat)} {r : Nat × Nat} :
    ∀ (l acc : List (Nat × Nat)), chainAux acc l = true → acc ≠ [] →
      (∀ a ∈ acc, a ∈ pts ∧ Reaches pts r a) → (∀ x ∈ l, x ∈ pts) →
      ∀ x ∈ l, Reaches pts r x := by
  intro l
  induction l with
  | nil =>
    intro acc _ _ _ _ x hx
    exact absurd hx (List.not_mem_nil x)
  | cons y rest ih =>
    intro acc hchain hne hacc hsub x hx
    rw [chainAux, Bool.and_eq_true] at hchain
    have hemp : acc.isEmpty = false := by
      cases acc with
      | nil => exact absurd rfl hne
      | cons a t => rfl
    rw [hemp, Bool.false_or] at hchain
    obtain ⟨a, ha, hadj⟩ := List.any_eq_true.mp hchain.1
    have ha2 : a ∈ acc := List.mem_of_mem_take ha
    have hy : y ∈ pts := hsub y (List.mem_cons_self y rest)
    have hry : Reaches pts r y :=
      reaches_trans (hacc a ha2).2
        (Relation.ReflTransGen.single ⟨(hacc a ha2).1, hy, hadj⟩)
    rcases List.mem_cons.mp hx with rfl | hx2
    · exact hry
    · refine ih (y :: acc) hchain.2 (by simp) ?_
        (fun z hz => hsub z (List.mem_cons_of_mem y hz)) x hx2
      intro b hb
      rcases List.mem_cons.mp hb with rfl | hb2
      · exact ⟨hy, hry⟩
      · exact hacc b hb2

theorem chainOK_reaches {pts l : List (Nat × Nat)} (h : chainOK l = true)
    (hsub : ∀ x ∈ l, x ∈ pts) : ∀ p ∈ l, ∀ q ∈ l, Reaches pts p q := by
  cases l with
  | nil =>
    intro p hp
    exact absurd hp (List.not_mem_nil p)
  | cons r rest =>
    have hchain : chainAux [r] rest = true := by
      rw [chainOK, chainAux] at h
      simpa using h
    have hr : r ∈ pts := hsub r (List.mem_cons_self r rest)
    have hall : ∀ x ∈ r :: rest, Reaches pts r x := by
      intro x hx
      rcases List.mem_cons.mp hx with rfl | hx2
      · exact Relation.ReflTransGen.refl
      · exact chainAux_reaches rest [r] hchain (by simp)
          (fun a ha => by
            rcases List.mem_cons.mp ha with rfl | h0
            · exact ⟨hr, Relation.ReflTransGen.refl⟩
            · exact absurd h0 (List.not_mem_nil a))
          (fun z hz => hsub z (List.mem_cons_of_mem r hz)) x hx2
    intro p hp q hq
    exact reaches_trans (reaches_symm (hall p hp)) (hall q hq)

theorem findIdx_eq_of_split {α : Type} {pred : α → Bool} {l A : List α} {h0 : α}
    {rest : List α} (hsplit : l = A ++ h0 :: rest)
    (hfalse : ∀ q ∈ A, pred q = false) (htrue : pred h0 = true) :
    l.findIdx pred = A.length := by
  subst hsplit
  induction A with
  | nil => simp [List.findIdx_cons, htrue]
  | cons a t ih =>
    rw [List.cons_append, List.findIdx_cons, hfalse a (List.mem_cons_self a t)]
    have := ih (fun q hq => hfalse q (List.mem_cons_of_mem a hq))
    simp only [cond_false, this, List.length_cons]

theorem map_const_of_mem {α β : Type} {l : List α} {f : α → β} {c : β}
    (h : ∀ x ∈ l, f x = c) : l.map f = List.replicate l.length c := by
  induction l with
  | nil => rfl
  | cons a t ih =>
    rw [List.map_cons, List.length_cons, List.replicate_succ,
      h a (List.mem_cons_self a t), ih (fun x hx => h x (List.mem_cons_of_mem a hx))]

/-- Two 8-adjacent points whose rows avoid residue 13 modulo 14 lie in the
same 14-row band. -/
theorem band_eq_of_adj {p q : Nat × Nat} (hp : p.1 % 14 ≤ 12) (hq : q.1 % 14 ≤ 12)
    (hadj : adjB p q = true) : p.1 / 14 = q.1 / 14 := by
  unfold adjB sqDist at hadj
  rw [decide_eq_true_eq] at hadj
  have hb := sq_nonneg ((p.2 : Int) - q.2)
  have ha1 : (p.1 : Int) - q.1 < 2 := by
    nlinarith [sq_nonneg ((p.1 : Int) - q.1 - 2)]
  have ha2 : -2 < (p.1 : Int) - q.1 := by
    nlinarith [sq_nonneg ((p.1 : Int) - q.1 + 2)]
  omega

theorem reaches_band {pts : List (Nat × Nat)}
    (hband : ∀ p ∈ pts, p.1 % 14 ≤ 12) {p q : Nat × Nat} (h : Reaches pts p q) :
    p.1 / 14 = q.1 / 14 := by
  induction h with
  | refl => rfl
  | tail _ hstep ih =>
    exact ih.trans (band_eq_of_adj (hband _ hstep.1) (hband _ hstep.2.1) hstep.2.2)

/-- The representative index of a point in a band-separated block: the first
point of the block. -/
theorem repIdx_block {pts pre blk post : List (Nat × Nat)} {b : Nat} {p : Nat × Nat}
    (hsplit : pts = pre ++ (blk ++ post))
    (hband : ∀ r ∈ pts, r.1 % 14 ≤ 12)
    (hpre : ∀ r ∈ pre, r.1 / 14 < b)
    (hblk : ∀ r ∈ blk, r.1 / 14 = b)
    (hchain : chainOK blk = true)
    (hp : p ∈ blk) :
    repIdx pts p = pre.length := by
  have hsub : ∀ r ∈ blk, r ∈ pts := by
    intro r hr
    rw [hsplit]
    exact List.mem_append_right pre (List.mem_append_left post hr)
  have hpp : p ∈ pts := hsub p hp
  obtain ⟨h0, t0, he⟩ := List.exists_cons_of_ne_nil (List.ne_nil_of_mem hp)
  have hsplit2 : pts = pre ++ h0 :: (t0 ++ post) := by
    rw [hsplit, he, List.cons_append]
  have hreach := chainOK_reaches hchain hsub
  unfold repIdx
  apply findIdx_eq_of_split hsplit2
  · intro q hq
    have hqpts : q ∈ pts := by
      rw [hsplit]
      exact List.mem_append_left _ hq
    cases hcc : reachB pts p q
    · rfl
    · exfalso
      have hR := (reachB_iff hpp).mp hcc
      have h1 := reaches_band hband hR
      have h2 := hblk p hp
      have h3 := hpre q hq
      omega
  · exact (reachB_iff hpp).mpr
      (hreach p hp h0 (he ▸ List.mem_cons_self h0 t0))

theorem bandOK_spec {b : Nat} {l : List (Nat × Nat)} (h : bandOK b l = true) :
    ∀ r ∈ l, 14 * b ≤ r.1 ∧ r.1 ≤ 14 * b + 12 := by
  intro r hr
  have h2 := List.all_eq_true.mp h r hr
  rw [Bool.and_eq_true, decide_eq_true_eq, decide_eq_true_eq] at h2
  exact h2

/-- Widths in the acceptance window `[9.85, 10.55]` have outlier probability
below 0.9: the bad term's exponent is far more negative than the good one's. -/
theorem outlier_lt_09 {w : ℝ} (h : (w - 8) ^ 2 / 2 ≤ (w - 30) ^ 2 / 50) :
    outlier_probability 0.9 8 1 30 5 w < 0.9 := by
  have hG : 0 < gaussTerm 0.9 8 1 w := gaussTerm_pos 8 w (by norm_num) (by norm_num)
  have hB : 0 < gaussTerm (1 - 0.9) 30 5 w := gaussTerm_pos 30 w (by norm_num) (by norm_num)
  unfold outlier_probability
  apply ratio_lt_of_lt hG hB
  unfold gaussTerm
  rw [sqrt_two_pi_25, show 2 * Real.pi * (1 : ℝ) ^ 2 = 2 * Real.pi from by ring]
  have hs := sqrt_two_pi_pos
  have hexp : Real.exp (-(w - 30) ^ 2 / (2 * 5 ^ 2)) ≤
      Real.exp (-(w - 8) ^ 2 / (2 * 1 ^ 2)) := by
    apply Real.exp_le_exp.mpr
    nlinarith [h]
  have hE := Real.exp_pos (-(w - 8) ^ 2 / (2 * 1 ^ 2))
  have h1 : (1 - 0.9) / (5 * Real.sqrt (2 * Real.pi)) *
        Real.exp (-(w - 30) ^ 2 / (2 * 5 ^ 2)) ≤
      (1 - 0.9) / (5 * Real.sqrt (2 * Real.pi)) *
        Real.exp (-(w - 8) ^ 2 / (2 * 1 ^ 2)) := by
    apply mul_le_mul_of_nonneg_left hexp
    positivity
  have h2 : (1 - 0.9) / (5 * Real.sqrt (2 * Real.pi)) <
      0.9 * (0.9 / Real.sqrt (2 * Real.pi)) := by
    rw [mul_div_assoc', div_lt_div_iff (by positivity) hs]
    nlinarith [hs]
  have h3 := mul_lt_mul_of_pos_right h2 hE
  rw [← mul_assoc]
  exact lt_of_le_of_lt h1 h3

theorem gget_append_left (g1 g2 : Grid) (i j : Nat) (h : i < g1.length) :
    gget (g1 ++ g2) (i : Int) (j : Int) = gget g1 i j := by
  unfold gget
  rw [if_pos ⟨Int.natCast_nonneg i, Int.natCast_nonneg j⟩,
    if_pos ⟨Int.natCast_nonneg i, Int.natCast_nonneg j⟩,
    Int.toNat_natCast, Int.toNat_natCast, List.getD_append _ _ _ _ h]

theorem gget_append_right (g1 g2 : Grid) (i j : Nat) :
    gget (g1 ++ g2) ((g1.length + i : Nat) : Int) (j : Int) = gget g2 i j := by
  unfold gget
  rw [if_pos ⟨Int.natCast_nonneg _, Int.natCast_nonneg j⟩,
    if_pos ⟨Int.natCast_nonneg i, Int.natCast_nonneg j⟩,
    Int.toNat_natCast, Int.toNat_natCast, Int.toNat_natCast]
  have hrow : (g1 ++ g2).getD (g1.length + i) [] = g2.getD i [] := by
    rw [List.getD_append_right _ _ _ _ (by omega)]
    congr 1
    omega
  rw [hrow]

/-- The filtered points of a vertically stacked pair of grids: the points of
the top grid followed by the points of the bottom grid with shifted rows. -/
theorem sePoints_append (g1 g2 : Grid) :
    sePoints (g1 ++ g2) =
      sePoints g1 ++ (sePoints g2).map (fun p => (g1.length + p.1, p.2)) := by
  unfold sePoints
  rw [List.length_append, List.range_add, List.flatMap_append, List.flatMap_map,
    List.map_flatMap]
  congr 1
  · apply List.flatMap_congr
    intro i hi
    have hi2 : i < g1.length := List.mem_range.mp hi
    have hrow : (g1 ++ g2).getD i [] = g1.getD i [] := List.getD_append _ _ _ _ hi2
    rw [hrow]
    apply List.filterMap_congr
    intro j _
    have hse : isSE (g1 ++ g2) (i : Int) (j : Int) = isSE g1 i j := by
      unfold isSE
      rw [gget_append_left g1 g2 i j hi2]
    rw [hse]
  · apply List.flatMap_congr
    intro i _
    have hrow : (g1 ++ g2).getD (g1.length + i) [] = g2.getD i [] := by
      rw [List.getD_append_right _ _ _ _ (by omega)]
      congr 1
      omega
    rw [hrow, List.map_filterMap]
    apply List.filterMap_congr
    intro j _
    have hse : isSE (g1 ++ g2) ((g1.length + i : Nat) : Int) (j : Int) =
        isSE g2 i j := by
      unfold isSE
      rw [gget_append_right g1 g2 i j]
    rw [hse]
    by_cases hc : isSE g2 (i : Int) (j : Int) = true
    · rw [if_pos hc, if_pos hc]
      rfl
    · rw [if_neg hc, if_neg hc]
      rfl

theorem map_shift_shift (a b : Nat) (l : List (Nat × Nat)) :
    (l.map (fun p => (b + p.1, p.2))).map (fun p => (a + p.1, p.2)) =
      l.map (fun p => ((a + b) + p.1, p.2)) := by
  rw [List.map_map]
  apply List.map_congr_left
  intro x _
  show (a + (b + x.1), x.2) = ((a + b) + x.1, x.2)
  rw [Nat.add_assoc]

theorem sePoints_stack_cons (g : Grid) (gs : List Grid) (hg : g.length = 13) :
    sePoints (stackBlobs (g :: gs)) =
      sePoints g ++ (sePoints (stackBlobs gs)).map (fun p => (14 + p.1, p.2)) := by
  show sePoints (g ++ (row0 :: stackBlobs gs)) = _
  rw [show row0 :: stackBlobs gs = [row0] ++ stackBlobs gs from rfl,
    ← List.append_assoc, sePoints_append (g ++ [row0]) (stackBlobs gs),
    sePoints_append g [row0], show sePoints [row0] = [] from by decide,
    List.map_nil, List.append_nil, List.length_append, hg]
  norm_num

theorem blockB_shift_0 : blockB 0 8 8 9 = sePoints (blob 8 8 9) := by
  unfold blockB
  simp

theorem blockB_shift_1 : blockB 1 7 6 7 =
    (sePoints (blob 7 6 7)).map (fun p => (14 + p.1, p.2)) := by
  unfold blockB
  norm_num

theorem blockB_shift_2 : blockB 2 5 5 5 =
    (sePoints (blob 5 5 5)).map (fun p => (28 + p.1, p.2)) := by
  unfold blockB
  norm_num

theorem blockB_shift_3 : blockB 3 7 6 7 =
    (sePoints (blob 7 6 7)).map (fun p => (42 + p.1, p.2)) := by
  unfold blockB
  norm_num

theorem blockB_shift_4 : blockB 4 8 8 9 =
    (sePoints (blob 8 8 9)).map (fun p => (56 + p.1, p.2)) := by
  unfold blockB
  norm_num

theorem blockB_shift_5 : blockB 5 7 6 7 =
    (sePoints (blob 7 6 7)).map (fun p => (70 + p.1, p.2)) := by
  unfold blockB
  norm_num

theorem blockB_shift_6 : blockB 6 5 5 5 =
    (sePoints (blob 5 5 5)).map (fun p => (84 + p.1, p.2)) := by
  unfold blockB
  norm_num

theorem pts64_decomp :
    pts64 = blockB 0 8 8 9 ++ (blockB 1 7 6 7 ++ (blockB 2 5 5 5 ++ (blockB 3 7 6 7 ++ (blockB 4 8 8 9 ++ (blockB 5 7 6 7 ++ (blockB 6 5 5 5)))))) := by
  unfold pts64
  rw [show simple_lin_map [1] G64 = G64 from by decide]
  rw [show filter_lone_pixels G64 = G64 from by decide]
  unfold G64
  have h6 : sePoints (stackBlobs [blob 5 5 5]) = sePoints (blob 5 5 5) := by
    rw [sePoints_stack_cons _ _ (by decide),
      show sePoints (stackBlobs []) = [] from rfl]
    simp
  have h5 : sePoints (stackBlobs [blob 7 6 7, blob 5 5 5]) =
      sePoints (blob 7 6 7) ++ ((sePoints (blob 5 5 5)).map (fun p => (14 + p.1, p.2))) := by
    rw [sePoints_stack_cons _ _ (by decide), h6]
  have h4 : sePoints (stackBlobs [blob 8 8 9, blob 7 6 7, blob 5 5 5]) =
      sePoints (blob 8 8 9) ++ ((sePoints (blob 7 6 7)).map (fun p => (14 + p.1, p.2)) ++ ((sePoints (blob 5 5 5)).map (fun p => (28 + p.1, p.2)))) := by
    rw [sePoints_stack_cons _ _ (by decide), h5]
    simp only [List.map_append, map_shift_shift]
  have h3 : sePoints (stackBlobs [blob 7 6 7, blob 8 8 9, blob 7 6 7, blob 5 5 5]) =
      sePoints (blob 7 6 7) ++ ((sePoints (blob 8 8 9)).map (fun p => (14 + p.1, p.2)) ++ ((sePoints (blob 7 6 7)).map (fun p => (28 + p.1, p.2)) ++ ((sePoints (blob 5 5 5)).map (fun p => (42 + p.1, p.2))))) := by
    rw [sePoints_stack_cons _ _ (by decide), h4]
    simp only [List.map_append, map_shift_shift]
  have h2 : sePoints (stackBlobs [blob 5 5 5, blob 7 6 7, blob 8 8 9, blob 7 6 7, blob 5 5 5]) =
      sePoints (blob 5 5 5) ++ ((sePoints (blob 7 6 7)).map (fun p => (14 + p.1, p.2)) ++ ((sePoints (blob 8 8 9)).map (fun p => (28 + p.1, p.2)) ++ ((sePoints (blob 7 6 7)).map (fun p => (42 + p.1, p.2)) ++ ((sePoints (blob 5 5 5)).map (fun p => (56 + p.1, p.2)))))) := by
    rw [sePoints_stack_cons _ _ (by decide), h3]
    simp only [List.map_append, map_shift_shift]
  have h1 : sePoints (stackBlobs [blob 7 6 7, blob 5 5 5, blob 7 6 7, blob 8 8 9, blob 7 6 7, blob 5 5 5]) =
      sePoints (blob 7 6 7) ++ ((sePoints (blob 5 5 5)).map (fun p => (14 + p.1, p.2)) ++ ((sePoints (blob 7 6 7)).map (fun p => (28 + p.1, p.2)) ++ ((sePoints (blob 8 8 9)).map (fun p => (42 + p.1, p.2)) ++ ((sePoints (blob 7 6 7)).map (fun p => (56 + p.1, p.2)) ++ ((sePoints (blob 5 5 5)).map (fun p => (70 + p.1, p.2))))))) := by
    rw [sePoints_stack_cons _ _ (by decide), h2]
    simp only [List.map_append, map_shift_shift]
  have h0 : sePoints (stackBlobs [blob 8 8 9, blob 7 6 7, blob 5 5 5, blob 7 6 7, blob 8 8 9, blob 7 6 7, blob 5 5 5]) =
      sePoints (blob 8 8 9) ++ ((sePoints (blob 7 6 7)).map (fun p => (14 + p.1, p.2)) ++ ((sePoints (blob 5 5 5)).map (fun p => (28 + p.1, p.2)) ++ ((sePoints (blob 7 6 7)).map (fun p => (42 + p.1, p.2)) ++ ((sePoints (blob 8 8 9)).map (fun p => (56 + p.1, p.2)) ++ ((sePoints (blob 7 6 7)).map (fun p => (70 + p.1, p.2)) ++ ((sePoints (blob 5 5 5)).map (fun p => (84 + p.1, p.2)))))))) := by
    rw [sePoints_stack_cons _ _ (by decide), h1]
    simp only [List.map_append, map_shift_shift]
  rw [h0, blockB_shift_0, blockB_shift_1, blockB_shift_2, blockB_shift_3, blockB_shift_4, blockB_shift_5, blockB_shift_6]

theorem blockB_len :
    (blockB 0 8 8 9).length = 195 ∧
    (blockB 1 7 6 7).length = 190 ∧
    (blockB 2 5 5 5).length = 185 ∧
    (blockB 3 7 6 7).length = 190 ∧
    (blockB 4 8 8 9).length = 195 ∧
    (blockB 5 7 6 7).length = 190 ∧
    (blockB 6 5 5 5).length = 185 := by
  set_option maxRecDepth 40000 in decide

theorem blockB_chain :
    chainOK (blockB 0 8 8 9) = true ∧
    chainOK (blockB 1 7 6 7) = true ∧
    chainOK (blockB 2 5 5 5) = true ∧
    chainOK (blockB 3 7 6 7) = true ∧
    chainOK (blockB 4 8 8 9) = true ∧
    chainOK (blockB 5 7 6 7) = true ∧
    chainOK (blockB 6 5 5 5) = true := by
  set_option maxRecDepth 40000 in decide

theorem blockB_band :
    bandOK 0 (blockB 0 8 8 9) = true ∧
    bandOK 1 (blockB 1 7 6 7) = true ∧
    bandOK 2 (blockB 2 5 5 5) = true ∧
    bandOK 3 (blockB 3 7 6 7) = true ∧
    bandOK 4 (blockB 4 8 8 9) = true ∧
    bandOK 5 (blockB 5 7 6 7) = true ∧
    bandOK 6 (blockB 6 5 5 5) = true := by
  set_option maxRecDepth 40000 in decide

theorem faAux_congr : ∀ (n : Nat) {m : Nat} (l : List Nat), l.length ≤ n → l.length ≤ m →
    firstAppearanceAux n l = firstAppearanceAux m l := by
  intro n
  induction n with
  | zero =>
    intro m l hn _
    have hnil : l = [] := List.length_eq_zero.mp (by omega)
    subst hnil
    cases m <;> rfl
  | succ k ih =>
    intro m l hn hm
    cases l with
    | nil => cases m <;> rfl
    | cons a t =>
      cases m with
      | zero =>
        rw [List.length_cons] at hm
        omega
      | succ m2 =>
        show a :: firstAppearanceAux k (t.filter (fun x => x ≠ a)) =
          a :: firstAppearanceAux m2 (t.filter (fun x => x ≠ a))
        have hlen := List.length_filter_le (fun x => x ≠ a) t
        rw [List.length_cons] at hn hm
        exact congrArg _ (ih _ (by omega) (by omega))

theorem firstAppearance_cons (a : Nat) (l : List Nat) :
    firstAppearance (a :: l) = a :: firstAppearance (l.filter (fun x => x ≠ a)) := by
  show a :: firstAppearanceAux l.length (l.filter (fun x => x ≠ a)) =
    a :: firstAppearanceAux (l.filter (fun x => x ≠ a)).length
      (l.filter (fun x => x ≠ a))
  exact congrArg _ (faAux_congr l.length _
    (List.length_filter_le _ _) (le_refl _))

theorem filter_replicate_self (a : Nat) (n : Nat) :
    (List.replicate n a).filter (fun x => x ≠ a) = [] := by
  induction n with
  | zero => rfl
  | succ m ih =>
    rw [List.replicate_succ, List.filter_cons]
    simp [ih]

theorem filter_replicate_ne {b a : Nat} (h : b ≠ a) (n : Nat) :
    (List.replicate n b).filter (fun x => x ≠ a) = List.replicate n b := by
  induction n with
  | zero => rfl
  | succ m ih =>
    rw [List.replicate_succ, List.filter_cons]
    simp [h, ih, List.replicate_succ]

theorem fa_rep_step (a n : Nat) (hn : n ≠ 0) (l : List Nat) :
    firstAppearance (List.replicate n a ++ l) =
      a :: firstAppearance (l.filter (fun x => x ≠ a)) := by
  obtain ⟨m, rfl⟩ := Nat.exists_eq_succ_of_ne_zero hn
  rw [List.replicate_succ, List.cons_append, firstAppearance_cons,
    List.filter_append, filter_replicate_self, List.nil_append]

theorem fa_replicate (a n : Nat) (hn : n ≠ 0) :
    firstAppearance (List.replicate n a) = [a] := by
  have h := fa_rep_step a n hn []
  simpa using h

theorem fa64_eq :
    firstAppearance (List.replicate 195 0 ++ (List.replicate 190 195 ++ (List.replicate 185 385 ++ (List.replicate 190 570 ++ (List.replicate 195 760 ++ (List.replicate 190 955 ++ (List.replicate 185 1145))))))) =
      [0, 195, 385, 570, 760, 955, 1145] := by
  rw [fa_rep_step 0 195 (by decide)]
  rw [List.filter_append, List.filter_append, List.filter_append, List.filter_append, List.filter_append, filter_replicate_ne (by decide) 190, filter_replicate_ne (by decide) 185, filter_replicate_ne (by decide) 190, filter_replicate_ne (by decide) 195, filter_replicate_ne (by decide) 190, filter_replicate_ne (by decide) 185]
  rw [fa_rep_step 195 190 (by decide)]
  rw [List.filter_append, List.filter_append, List.filter_append, List.filter_append, filter_replicate_ne (by decide) 185, filter_replicate_ne (by decide) 190, filter_replicate_ne (by decide) 195, filter_replicate_ne (by decide) 190, filter_replicate_ne (by decide) 185]
  rw [fa_rep_step 385 185 (by decide)]
  rw [List.filter_append, List.filter_append, List.filter_append, filter_replicate_ne (by decide) 190, filter_replicate_ne (by decide) 195, filter_replicate_ne (by decide) 190, filter_replicate_ne (by decide) 185]
  rw [fa_rep_step 570 190 (by decide)]
  rw [List.filter_append, List.filter_append, filter_replicate_ne (by decide) 195, filter_replicate_ne (by decide) 190, filter_replicate_ne (by decide) 185]
  rw [fa_rep_step 760 195 (by decide)]
  rw [List.filter_append, filter_replicate_ne (by decide) 190, filter_replicate_ne (by decide) 185]
  rw [fa_rep_step 955 190 (by decide)]
  rw [filter_replicate_ne (by decide) 185]
  rw [fa_replicate 1145 185 (by decide)]

theorem pts64_band : ∀ r ∈ pts64, r.1 % 14 ≤ 12 := by
  intro r hr
  rw [pts64_decomp] at hr
  rcases List.mem_append.mp hr with h | hr
  · have := bandOK_spec blockB_band.1 r h
    omega
  rcases List.mem_append.mp hr with h | hr
  · have := bandOK_spec blockB_band.2.1 r h
    omega
  rcases List.mem_append.mp hr with h | hr
  · have := bandOK_spec blockB_band.2.2.1 r h
    omega
  rcases List.mem_append.mp hr with h | hr
  · have := bandOK_spec blockB_band.2.2.2.1 r h
    omega
  rcases List.mem_append.mp hr with h | hr
  · have := bandOK_spec blockB_band.2.2.2.2.1 r h
    omega
  rcases List.mem_append.mp hr with h | hr
  · have := bandOK_spec blockB_band.2.2.2.2.2.1 r h
    omega
  · have := bandOK_spec blockB_band.2.2.2.2.2.2 r hr
    omega

theorem div64_0 : ∀ r ∈ blockB 0 8 8 9, r.1 / 14 = 0 := by
  intro r hr
  have := bandOK_spec blockB_band.1 r hr
  omega

theorem div64_1 : ∀ r ∈ blockB 1 7 6 7, r.1 / 14 = 1 := by
  intro r hr
  have := bandOK_spec blockB_band.2.1 r hr
  omega

theorem div64_2 : ∀ r ∈ blockB 2 5 5 5, r.1 / 14 = 2 := by
  intro r hr
  have := bandOK_spec blockB_band.2.2.1 r hr
  omega

theorem div64_3 : ∀ r ∈ blockB 3 7 6 7, r.1 / 14 = 3 := by
  intro r hr
  have := bandOK_spec blockB_band.2.2.2.1 r hr
  omega

theorem div64_4 : ∀ r ∈ blockB 4 8 8 9, r.1 / 14 = 4 := by
  intro r hr
  have := bandOK_spec blockB_band.2.2.2.2.1 r hr
  omega

theorem div64_5 : ∀ r ∈ blockB 5 7 6 7, r.1 / 14 = 5 := by
  intro r hr
  have := bandOK_spec blockB_band.2.2.2.2.2.1 r hr
  omega

theorem div64_6 : ∀ r ∈ blockB 6 5 5 5, r.1 / 14 = 6 := by
  intro r hr
  have := bandOK_spec blockB_band.2.2.2.2.2.2 r hr
  omega

theorem repIdx64_0 : ∀ p ∈ blockB 0 8 8 9, repIdx pts64 p = 0 := by
  intro p hp
  have hsplit : pts64 = [] ++ (blockB 0 8 8 9 ++ (blockB 1 7 6 7 ++ (blockB 2 5 5 5 ++ (blockB 3 7 6 7 ++ (blockB 4 8 8 9 ++ (blockB 5 7 6 7 ++ (blockB 6 5 5 5))))))) := by
    rw [List.nil_append]
    exact pts64_decomp
  have h := repIdx_block hsplit pts64_band
    (fun r hr => absurd hr (List.not_mem_nil r)) div64_0 blockB_chain.1 hp
  simpa using h

theorem repIdx64_1 : ∀ p ∈ blockB 1 7 6 7, repIdx pts64 p = 195 := by
  intro p hp
  have hsplit : pts64 = blockB 0 8 8 9 ++ (blockB 1 7 6 7 ++ (blockB 2 5 5 5 ++ (blockB 3 7 6 7 ++ (blockB 4 8 8 9 ++ (blockB 5 7 6 7 ++ (blockB 6 5 5 5)))))) :=
    pts64_decomp
  have hpre : ∀ r ∈ blockB 0 8 8 9, r.1 / 14 < 1 := by
    intro r hr
    have := div64_0 r hr
    omega
  have h := repIdx_block hsplit pts64_band hpre div64_1 blockB_chain.2.1 hp
  rw [h, blockB_len.1]

theorem repIdx64_2 : ∀ p ∈ blockB 2 5 5 5, repIdx pts64 p = 385 := by
  intro p hp
  have hsplit : pts64 = (blockB 0 8 8 9 ++ (blockB 1 7 6 7)) ++ (blockB 2 5 5 5 ++ (blockB 3 7 6 7 ++ (blockB 4 8 8 9 ++ (blockB 5 7 6 7 ++ (blockB 6 5 5 5))))) := by
    simp only [pts64_decomp, List.append_assoc]
  have hpre : ∀ r ∈ (blockB 0 8 8 9 ++ (blockB 1 7 6 7)), r.1 / 14 < 2 := by
    intro r hr
    rcases List.mem_append.mp hr with h | hr
    · have := div64_0 r h
      omega
    · have := div64_1 r hr
      omega
  have h := repIdx_block hsplit pts64_band hpre div64_2 blockB_chain.2.2.1 hp
  rw [h, List.length_append, blockB_len.1, blockB_len.2.1]

theorem repIdx64_3 : ∀ p ∈ blockB 3 7 6 7, repIdx pts64 p = 570 := by
  intro p hp
  have hsplit : pts64 = (blockB 0 8 8 9 ++ (blockB 1 7 6 7 ++ (blockB 2 5 5 5))) ++ (blockB 3 7 6 7 ++ (blockB 4 8 8 9 ++ (blockB 5 7 6 7 ++ (blockB 6 5 5 5)))) := by
    simp only [pts64_decomp, List.append_assoc]
  have hpre : ∀ r ∈ (blockB 0 8 8 9 ++ (blockB 1 7 6 7 ++ (blockB 2 5 5 5))), r.1 / 14 < 3 := by
    intro r hr
    rcases List.mem_append.mp hr with h | hr
    · have := div64_0 r h
      omega
    rcases List.mem_append.mp hr with h | hr
    · have := div64_1 r h
      omega
    · have := div64_2 r hr
      omega
  have h := repIdx_block hsplit pts64_band hpre div64_3 blockB_chain.2.2.2.1 hp
  rw [h, List.length_append, List.length_append, blockB_len.1, blockB_len.2.1, blockB_len.2.2.1]

theorem repIdx64_4 : ∀ p ∈ blockB 4 8 8 9, repIdx pts64 p = 760 := by
  intro p hp
  have hsplit : pts64 = (blockB 0 8 8 9 ++ (blockB 1 7 6 7 ++ (blockB 2 5 5 5 ++ (blockB 3 7 6 7)))) ++ (blockB 4 8 8 9 ++ (blockB 5 7 6 7 ++ (blockB 6 5 5 5))) := by
    simp only [pts64_decomp, List.append_assoc]
  have hpre : ∀ r ∈ (blockB 0 8 8 9 ++ (blockB 1 7 6 7 ++ (blockB 2 5 5 5 ++ (blockB 3 7 6 7)))), r.1 / 14 < 4 := by
    intro r hr
    rcases List.mem_append.mp hr with h | hr
    · have := div64_0 r h
      omega
    rcases List.mem_append.mp hr with h | hr
    · have := div64_1 r h
      omega
    rcases List.mem_append.mp hr with h | hr
    · have := div64_2 r h
      omega
    · have := div64_3 r hr
      omega
  have h := repIdx_block hsplit pts64_band hpre div64_4 blockB_chain.2.2.2.2.1 hp
  rw [h, List.length_append, List.length_append, List.length_append, blockB_len.1, blockB_len.2.1, blockB_len.2.2.1, blockB_len.2.2.2.1]

theorem repIdx64_5 : ∀ p ∈ blockB 5 7 6 7, repIdx pts64 p = 955 := by
  intro p hp
  have hsplit : pts64 = (blockB 0 8 8 9 ++ (blockB 1 7 6 7 ++ (blockB 2 5 5 5 ++ (blockB 3 7 6 7 ++ (blockB 4 8 8 9))))) ++ (blockB 5 7 6 7 ++ (blockB 6 5 5 5)) := by
    simp only [pts64_decomp, List.append_assoc]
  have hpre : ∀ r ∈ (blockB 0 8 8 9 ++ (blockB 1 7 6 7 ++ (blockB 2 5 5 5 ++ (blockB 3 7 6 7 ++ (blockB 4 8 8 9))))), r.1 / 14 < 5 := by
    intro r hr
    rcases List.mem_append.mp hr with h | hr
    · have := div64_0 r h
      omega
    rcases List.mem_append.mp hr with h | hr
    · have := div64_1 r h
      omega
    rcases List.mem_append.mp hr with h | hr
    · have := div64_2 r h
      omega
    rcases List.mem_append.mp hr with h | hr
    · have := div64_3 r h
      omega
    · have := div64_4 r hr
      omega
  have h := repIdx_block hsplit pts64_band hpre div64_5 blockB_chain.2.2.2.2.2.1 hp
  rw [h, List.length_append, List.length_append, List.length_append, List.length_append, blockB_len.1, blockB_len.2.1, blockB_len.2.2.1, blockB_len.2.2.2.1, blockB_len.2.2.2.2.1]

theorem repIdx64_6 : ∀ p ∈ blockB 6 5 5 5, repIdx pts64 p = 1145 := by
  intro p hp
  have hsplit : pts64 = (blockB 0 8 8 9 ++ (blockB 1 7 6 7 ++ (blockB 2 5 5 5 ++ (blockB 3 7 6 7 ++ (blockB 4 8 8 9 ++ (blockB 5 7 6 7)))))) ++ (blockB 6 5 5 5 ++ []) := by
    simp only [pts64_decomp, List.append_assoc, List.append_nil]
  have hpre : ∀ r ∈ (blockB 0 8 8 9 ++ (blockB 1 7 6 7 ++ (blockB 2 5 5 5 ++ (blockB 3 7 6 7 ++ (blockB 4 8 8 9 ++ (blockB 5 7 6 7)))))), r.1 / 14 < 6 := by
    intro r hr
    rcases List.mem_append.mp hr with h | hr
    · have := div64_0 r h
      omega
    rcases List.mem_append.mp hr with h | hr
    · have := div64_1 r h
      omega
    rcases List.mem_append.mp hr with h | hr
    · have := div64_2 r h
      omega
    rcases List.mem_append.mp hr with h | hr
    · have := div64_3 r h
      omega
    rcases List.mem_append.mp hr with h | hr
    · have := div64_4 r h
      omega
    · have := div64_5 r hr
      omega
  have h := repIdx_block hsplit pts64_band hpre div64_6 blockB_chain.2.2.2.2.2.2 hp
  rw [h, List.length_append, List.length_append, List.length_append, List.length_append, List.length_append, blockB_len.1, blockB_len.2.1, blockB_len.2.2.1, blockB_len.2.2.2.1, blockB_len.2.2.2.2.1, blockB_len.2.2.2.2.2.1]

theorem map_repIdx64 : List.map (repIdx pts64) pts64 =
    List.replicate 195 0 ++ (List.replicate 190 195 ++ (List.replicate 185 385 ++ (List.replicate 190 570 ++ (List.replicate 195 760 ++ (List.replicate 190 955 ++ (List.replicate 185 1145)))))) := by
  have h1 : List.map (repIdx pts64) pts64 =
      List.map (repIdx pts64) (blockB 0 8 8 9 ++ (blockB 1 7 6 7 ++ (blockB 2 5 5 5 ++ (blockB 3 7 6 7 ++ (blockB 4 8 8 9 ++ (blockB 5 7 6 7 ++ (blockB 6 5 5 5))))))) := congrArg _ pts64_decomp
  rw [h1, List.map_append, List.map_append, List.map_append, List.map_append, List.map_append, List.map_append,
    map_const_of_mem repIdx64_0, map_const_of_mem repIdx64_1, map_const_of_mem repIdx64_2, map_const_of_mem repIdx64_3, map_const_of_mem repIdx64_4, map_const_of_mem repIdx64_5, map_const_of_mem repIdx64_6,
    blockB_len.1, blockB_len.2.1, blockB_len.2.2.1, blockB_len.2.2.2.1, blockB_len.2.2.2.2.1, blockB_len.2.2.2.2.2.1, blockB_len.2.2.2.2.2.2]

theorem labelOf64_0 : ∀ p ∈ blockB 0 8 8 9, labelOf pts64 p = 0 := by
  intro p hp
  unfold labelOf
  rw [map_repIdx64, fa64_eq, repIdx64_0 p hp]
  rfl

theorem labelOf64_1 : ∀ p ∈ blockB 1 7 6 7, labelOf pts64 p = 1 := by
  intro p hp
  unfold labelOf
  rw [map_repIdx64, fa64_eq, repIdx64_1 p hp]
  rfl

theorem labelOf64_2 : ∀ p ∈ blockB 2 5 5 5, labelOf pts64 p = 2 := by
  intro p hp
  unfold labelOf
  rw [map_repIdx64, fa64_eq, repIdx64_2 p hp]
  rfl

theorem labelOf64_3 : ∀ p ∈ blockB 3 7 6 7, labelOf pts64 p = 3 := by
  intro p hp
  unfold labelOf
  rw [map_repIdx64, fa64_eq, repIdx64_3 p hp]
  rfl

theorem labelOf64_4 : ∀ p ∈ blockB 4 8 8 9, labelOf pts64 p = 4 := by
  intro p hp
  unfold labelOf
  rw [map_repIdx64, fa64_eq, repIdx64_4 p hp]
  rfl

theorem labelOf64_5 : ∀ p ∈ blockB 5 7 6 7, labelOf pts64 p = 5 := by
  intro p hp
  unfold labelOf
  rw [map_repIdx64, fa64_eq, repIdx64_5 p hp]
  rfl

theorem labelOf64_6 : ∀ p ∈ blockB 6 5 5 5, labelOf pts64 p = 6 := by
  intro p hp
  unfold labelOf
  rw [map_repIdx64, fa64_eq, repIdx64_6 p hp]
  rfl

theorem pts64_length : pts64.length = 1330 := by
  rw [pts64_decomp]
  simp only [List.length_append]
  rw [blockB_len.1, blockB_len.2.1, blockB_len.2.2.1, blockB_len.2.2.2.1, blockB_len.2.2.2.2.1, blockB_len.2.2.2.2.2.1, blockB_len.2.2.2.2.2.2]

theorem pts64_ne_nil : pts64 ≠ [] := by
  intro h
  have := pts64_length
  rw [h] at this
  exact absurd this (by decide)

theorem labels64_eq : findClustersLabels pts64 = clusterLabels pts64 := by
  unfold findClustersLabels
  rw [if_neg]
  rw [pts64_length]
  omega

theorem clusterLabels64 : clusterLabels pts64 =
    List.replicate 195 0 ++ (List.replicate 190 1 ++ (List.replicate 185 2 ++ (List.replicate 190 3 ++ (List.replicate 195 4 ++ (List.replicate 190 5 ++ (List.replicate 185 6)))))) := by
  rw [clusterLabels_eq_map]
  have h1 : List.map (labelOf pts64) pts64 =
      List.map (labelOf pts64) (blockB 0 8 8 9 ++ (blockB 1 7 6 7 ++ (blockB 2 5 5 5 ++ (blockB 3 7 6 7 ++ (blockB 4 8 8 9 ++ (blockB 5 7 6 7 ++ (blockB 6 5 5 5))))))) := congrArg _ pts64_decomp
  rw [h1, List.map_append, List.map_append, List.map_append, List.map_append, List.map_append, List.map_append,
    map_const_of_mem labelOf64_0, map_const_of_mem labelOf64_1, map_const_of_mem labelOf64_2, map_const_of_mem labelOf64_3, map_const_of_mem labelOf64_4, map_const_of_mem labelOf64_5, map_const_of_mem labelOf64_6,
    blockB_len.1, blockB_len.2.1, blockB_len.2.2.1, blockB_len.2.2.2.1, blockB_len.2.2.2.2.1, blockB_len.2.2.2.2.2.1, blockB_len.2.2.2.2.2.2]

theorem numClusters64 : numClusters (findClustersLabels pts64) = 7 := by
  rw [labels64_eq, numClusters_eq_FA pts64_ne_nil]
  rw [show pts64.map (repIdx pts64) = List.map (repIdx pts64) pts64 from rfl]
  rw [map_repIdx64, fa64_eq]
  rfl

theorem group64_0 : clusterGroup pts64 (findClustersLabels pts64) 0 = blockB 0 8 8 9 := by
  rw [labels64_eq, clusterGroup_eq_filter]
  have h1 : pts64.filter (fun p => labelOf pts64 p == 0) =
      (blockB 0 8 8 9 ++ (blockB 1 7 6 7 ++ (blockB 2 5 5 5 ++ (blockB 3 7 6 7 ++ (blockB 4 8 8 9 ++ (blockB 5 7 6 7 ++ (blockB 6 5 5 5))))))).filter (fun p => labelOf pts64 p == 0) :=
    congrArg _ pts64_decomp
  have hc0 : ∀ x ∈ blockB 0 8 8 9, (labelOf pts64 x == (0 : Nat)) = true := by
    intro x hx
    rw [labelOf64_0 x hx]
    decide
  have hc1 : ∀ x ∈ blockB 1 7 6 7, (labelOf pts64 x == (0 : Nat)) = false := by
    intro x hx
    rw [labelOf64_1 x hx]
    decide
  have hc2 : ∀ x ∈ blockB 2 5 5 5, (labelOf pts64 x == (0 : Nat)) = false := by
    intro x hx
    rw [labelOf64_2 x hx]
    decide
  have hc3 : ∀ x ∈ blockB 3 7 6 7, (labelOf pts64 x == (0 : Nat)) = false := by
    intro x hx
    rw [labelOf64_3 x hx]
    decide
  have hc4 : ∀ x ∈ blockB 4 8 8 9, (labelOf pts64 x == (0 : Nat)) = false := by
    intro x hx
    rw [labelOf64_4 x hx]
    decide
  have hc5 : ∀ x ∈ blockB 5 7 6 7, (labelOf pts64 x == (0 : Nat)) = false := by
    intro x hx
    rw [labelOf64_5 x hx]
    decide
  have hc6 : ∀ x ∈ blockB 6 5 5 5, (labelOf pts64 x == (0 : Nat)) = false := by
    intro x hx
    rw [labelOf64_6 x hx]
    decide
  rw [h1, List.filter_append, List.filter_append, List.filter_append, List.filter_append, List.filter_append, List.filter_append]
  rw [List.filter_eq_self.mpr (fun x hx => hc0 x hx),
    List.filter_eq_nil_iff.mpr (fun x hx => by rw [hc1 x hx]; decide),
    List.filter_eq_nil_iff.mpr (fun x hx => by rw [hc2 x hx]; decide),
    List.filter_eq_nil_iff.mpr (fun x hx => by rw [hc3 x hx]; decide),
    List.filter_eq_nil_iff.mpr (fun x hx => by rw [hc4 x hx]; decide),
    List.filter_eq_nil_iff.mpr (fun x hx => by rw [hc5 x hx]; decide),
    List.filter_eq_nil_iff.mpr (fun x hx => by rw [hc6 x hx]; decide)]
  simp

theorem group64_1 : clusterGroup pts64 (findClustersLabels pts64) 1 = blockB 1 7 6 7 := by
  rw [labels64_eq, clusterGroup_eq_filter]
  have h1 : pts64.filter (fun p => labelOf pts64 p == 1) =
      (blockB 0 8 8 9 ++ (blockB 1 7 6 7 ++ (blockB 2 5 5 5 ++ (blockB 3 7 6 7 ++ (blockB 4 8 8 9 ++ (blockB 5 7 6 7 ++ (blockB 6 5 5 5))))))).filter (fun p => labelOf pts64 p == 1) :=
    congrArg _ pts64_decomp
  have hc0 : ∀ x ∈ blockB 0 8 8 9, (labelOf pts64 x == (1 : Nat)) = false := by
    intro x hx
    rw [labelOf64_0 x hx]
    decide
  have hc1 : ∀ x ∈ blockB 1 7 6 7, (labelOf pts64 x == (1 : Nat)) = true := by
    intro x hx
    rw [labelOf64_1 x hx]
    decide
  have hc2 : ∀ x ∈ blockB 2 5 5 5, (labelOf pts64 x == (1 : Nat)) = false := by
    intro x hx
    rw [labelOf64_2 x hx]
    decide
  have hc3 : ∀ x ∈ blockB 3 7 6 7, (labelOf pts64 x == (1 : Nat)) = false := by
    intro x hx
    rw [labelOf64_3 x hx]
    decide
  have hc4 : ∀ x ∈ blockB 4 8 8 9, (labelOf pts64 x == (1 : Nat)) = false := by
    intro x hx
    rw [labelOf64_4 x hx]
    decide
  have hc5 : ∀ x ∈ blockB 5 7 6 7, (labelOf pts64 x == (1 : Nat)) = false := by
    intro x hx
    rw [labelOf64_5 x hx]
    decide
  have hc6 : ∀ x ∈ blockB 6 5 5 5, (labelOf pts64 x == (1 : Nat)) = false := by
    intro x hx
    rw [labelOf64_6 x hx]
    decide
  rw [h1, List.filter_append, List.filter_append, List.filter_append, List.filter_append, List.filter_append, List.filter_append]
  rw [List.filter_eq_nil_iff.mpr (fun x hx => by rw [hc0 x hx]; decide),
    List.filter_eq_self.mpr (fun x hx => hc1 x hx),
    List.filter_eq_nil_iff.mpr (fun x hx => by rw [hc2 x hx]; decide),
    List.filter_eq_nil_iff.mpr (fun x hx => by rw [hc3 x hx]; decide),
    List.filter_eq_nil_iff.mpr (fun x hx => by rw [hc4 x hx]; decide),
    List.filter_eq_nil_iff.mpr (fun x hx => by rw [hc5 x hx]; decide),
    List.filter_eq_nil_iff.mpr (fun x hx => by rw [hc6 x hx]; decide)]
  simp

theorem group64_2 : clusterGroup pts64 (findClustersLabels pts64) 2 = blockB 2 5 5 5 := by
  rw [labels64_eq, clusterGroup_eq_filter]
  have h1 : pts64.filter (fun p => labelOf pts64 p == 2) =
      (blockB 0 8 8 9 ++ (blockB 1 7 6 7 ++ (blockB 2 5 5 5 ++ (blockB 3 7 6 7 ++ (blockB 4 8 8 9 ++ (blockB 5 7 6 7 ++ (blockB 6 5 5 5))))))).filter (fun p => labelOf pts64 p == 2) :=
    congrArg _ pts64_decomp
  have hc0 : ∀ x ∈ blockB 0 8 8 9, (labelOf pts64 x == (2 : Nat)) = false := by
    intro x hx
    rw [labelOf64_0 x hx]
    decide
  have hc1 : ∀ x ∈ blockB 1 7 6 7, (labelOf pts64 x == (2 : Nat)) = false := by
    intro x hx
    rw [labelOf64_1 x hx]
    decide
  have hc2 : ∀ x ∈ blockB 2 5 5 5, (labelOf pts64 x == (2 : Nat)) = true := by
    intro x hx
    rw [labelOf64_2 x hx]
    decide
  have hc3 : ∀ x ∈ blockB 3 7 6 7, (labelOf pts64 x == (2 : Nat)) = false := by
    intro x hx
    rw [labelOf64_3 x hx]
    decide
  have hc4 : ∀ x ∈ blockB 4 8 8 9, (labelOf pts64 x == (2 : Nat)) = false := by
    intro x hx
    rw [labelOf64_4 x hx]
    decide
  have hc5 : ∀ x ∈ blockB 5 7 6 7, (labelOf pts64 x == (2 : Nat)) = false := by
    intro x hx
    rw [labelOf64_5 x hx]
    decide
  have hc6 : ∀ x ∈ blockB 6 5 5 5, (labelOf pts64 x == (2 : Nat)) = false := by
    intro x hx
    rw [labelOf64_6 x hx]
    decide
  rw [h1, List.filter_append, List.filter_append, List.filter_append, List.filter_append, List.filter_append, List.filter_append]
  rw [List.filter_eq_nil_iff.mpr (fun x hx => by rw [hc0 x hx]; decide),
    List.filter_eq_nil_iff.mpr (fun x hx => by rw [hc1 x hx]; decide),
    List.filter_eq_self.mpr (fun x hx => hc2 x hx),
    List.filter_eq_nil_iff.mpr (fun x hx => by rw [hc3 x hx]; decide),
    List.filter_eq_nil_iff.mpr (fun x hx => by rw [hc4 x hx]; decide),
    List.filter_eq_nil_iff.mpr (fun x hx => by rw [hc5 x hx]; decide),
    List.filter_eq_nil_iff.mpr (fun x hx => by rw [hc6 x hx]; decide)]
  simp

theorem group64_3 : clusterGroup pts64 (findClustersLabels pts64) 3 = blockB 3 7 6 7 := by
  rw [labels64_eq, clusterGroup_eq_filter]
  have h1 : pts64.filter (fun p => labelOf pts64 p == 3) =
      (blockB 0 8 8 9 ++ (blockB 1 7 6 7 ++ (blockB 2 5 5 5 ++ (blockB 3 7 6 7 ++ (blockB 4 8 8 9 ++ (blockB 5 7 6 7 ++ (blockB 6 5 5 5))))))).filter (fun p => labelOf pts64 p == 3) :=
    congrArg _ pts64_decomp
  have hc0 : ∀ x ∈ blockB 0 8 8 9, (labelOf pts64 x == (3 : Nat)) = false := by
    intro x hx
    rw [labelOf64_0 x hx]
    decide
  have hc1 : ∀ x ∈ blockB 1 7 6 7, (labelOf pts64 x == (3 : Nat)) = false := by
    intro x hx
    rw [labelOf64_1 x hx]
    decide
  have hc2 : ∀ x ∈ blockB 2 5 5 5, (labelOf pts64 x == (3 : Nat)) = false := by
    intro x hx
    rw [labelOf64_2 x hx]
    decide
  have hc3 : ∀ x ∈ blockB 3 7 6 7, (labelOf pts64 x == (3 : Nat)) = true := by
    intro x hx
    rw [labelOf64_3 x hx]
    decide
  have hc4 : ∀ x ∈ blockB 4 8 8 9, (labelOf pts64 x == (3 : Nat)) = false := by
    intro x hx
    rw [labelOf64_4 x hx]
    decide
  have hc5 : ∀ x ∈ blockB 5 7 6 7, (labelOf pts64 x == (3 : Nat)) = false := by
    intro x hx
    rw [labelOf64_5 x hx]
    decide
  have hc6 : ∀ x ∈ blockB 6 5 5 5, (labelOf pts64 x == (3 : Nat)) = false := by
    intro x hx
    rw [labelOf64_6 x hx]
    decide
  rw [h1, List.filter_append, List.filter_append, List.filter_append, List.filter_append, List.filter_append, List.filter_append]
  rw [List.filter_eq_nil_iff.mpr (fun x hx => by rw [hc0 x hx]; decide),
    List.filter_eq_nil_iff.mpr (fun x hx => by rw [hc1 x hx]; decide),
    List.filter_eq_nil_iff.mpr (fun x hx => by rw [hc2 x hx]; decide),
    List.filter_eq_self.mpr (fun x hx => hc3 x hx),
    List.filter_eq_nil_iff.mpr (fun x hx => by rw [hc4 x hx]; decide),
    List.filter_eq_nil_iff.mpr (fun x hx => by rw [hc5 x hx]; decide),
    List.filter_eq_nil_iff.mpr (fun x hx => by rw [hc6 x hx]; decide)]
  simp

theorem group64_4 : clusterGroup pts64 (findClustersLabels pts64) 4 = blockB 4 8 8 9 := by
  rw [labels64_eq, clusterGroup_eq_filter]
  have h1 : pts64.filter (fun p => labelOf pts64 p == 4) =
      (blockB 0 8 8 9 ++ (blockB 1 7 6 7 ++ (blockB 2 5 5 5 ++ (blockB 3 7 6 7 ++ (blockB 4 8 8 9 ++ (blockB 5 7 6 7 ++ (blockB 6 5 5 5))))))).filter (fun p => labelOf pts64 p == 4) :=
    congrArg _ pts64_decomp
  have hc0 : ∀ x ∈ blockB 0 8 8 9, (labelOf pts64 x == (4 : Nat)) = false := by
    intro x hx
    rw [labelOf64_0 x hx]
    decide
  have hc1 : ∀ x ∈ blockB 1 7 6 7, (labelOf pts64 x == (4 : Nat)) = false := by
    intro x hx
    rw [labelOf64_1 x hx]
    decide
  have hc2 : ∀ x ∈ blockB 2 5 5 5, (labelOf pts64 x == (4 : Nat)) = false := by
    intro x hx
    rw [labelOf64_2 x hx]
    decide
  have hc3 : ∀ x ∈ blockB 3 7 6 7, (labelOf pts64 x == (4 : Nat)) = false := by
    intro x hx
    rw [labelOf64_3 x hx]
    decide
  have hc4 : ∀ x ∈ blockB 4 8 8 9, (labelOf pts64 x == (4 : Nat)) = true := by
    intro x hx
    rw [labelOf64_4 x hx]
    decide
  have hc5 : ∀ x ∈ blockB 5 7 6 7, (labelOf pts64 x == (4 : Nat)) = false := by
    intro x hx
    rw [labelOf64_5 x hx]
    decide
  have hc6 : ∀ x ∈ blockB 6 5 5 5, (labelOf pts64 x == (4 : Nat)) = false := by
    intro x hx
    rw [labelOf64_6 x hx]
    decide
  rw [h1, List.filter_append, List.filter_append, List.filter_append, List.filter_append, List.filter_append, List.filter_append]
  rw [List.filter_eq_nil_iff.mpr (fun x hx => by rw [hc0 x hx]; decide),
    List.filter_eq_nil_iff.mpr (fun x hx => by rw [hc1 x hx]; decide),
    List.filter_eq_nil_iff.mpr (fun x hx => by rw [hc2 x hx]; decide),
    List.filter_eq_nil_iff.mpr (fun x hx => by rw [hc3 x hx]; decide),
    List.filter_eq_self.mpr (fun x hx => hc4 x hx),
    List.filter_eq_nil_iff.mpr (fun x hx => by rw [hc5 x hx]; decide),
    List.filter_eq_nil_iff.mpr (fun x hx => by rw [hc6 x hx]; decide)]
  simp

theorem group64_5 : clusterGroup pts64 (findClustersLabels pts64) 5 = blockB 5 7 6 7 := by
  rw [labels64_eq, clusterGroup_eq_filter]
  have h1 : pts64.filter (fun p => labelOf pts64 p == 5) =
      (blockB 0 8 8 9 ++ (blockB 1 7 6 7 ++ (blockB 2 5 5 5 ++ (blockB 3 7 6 7 ++ (blockB 4 8 8 9 ++ (blockB 5 7 6 7 ++ (blockB 6 5 5 5))))))).filter (fun p => labelOf pts64 p == 5) :=
    congrArg _ pts64_decomp
  have hc0 : ∀ x ∈ blockB 0 8 8 9, (labelOf pts64 x == (5 : Nat)) = false := by
    intro x hx
    rw [labelOf64_0 x hx]
    decide
  have hc1 : ∀ x ∈ blockB 1 7 6 7, (labelOf pts64 x == (5 : Nat)) = false := by
    intro x hx
    rw [labelOf64_1 x hx]
    decide
  have hc2 : ∀ x ∈ blockB 2 5 5 5, (labelOf pts64 x == (5 : Nat)) = false := by
    intro x hx
    rw [labelOf64_2 x hx]
    decide
  have hc3 : ∀ x ∈ blockB 3 7 6 7, (labelOf pts64 x == (5 : Nat)) = false := by
    intro x hx
    rw [labelOf64_3 x hx]
    decide
  have hc4 : ∀ x ∈ blockB 4 8 8 9, (labelOf pts64 x == (5 : Nat)) = false := by
    intro x hx
    rw [labelOf64_4 x hx]
    decide
  have hc5 : ∀ x ∈ blockB 5 7 6 7, (labelOf pts64 x == (5 : Nat)) = true := by
    intro x hx
    rw [labelOf64_5 x hx]
    decide
  have hc6 : ∀ x ∈ blockB 6 5 5 5, (labelOf pts64 x == (5 : Nat)) = false := by
    intro x hx
    rw [labelOf64_6 x hx]
    decide
  rw [h1, List.filter_append, List.filter_append, List.filter_append, List.filter_append, List.filter_append, List.filter_append]
  rw [List.filter_eq_nil_iff.mpr (fun x hx => by rw [hc0 x hx]; decide),
    List.filter_eq_nil_iff.mpr (fun x hx => by rw [hc1 x hx]; decide),
    List.filter_eq_nil_iff.mpr (fun x hx => by rw [hc2 x hx]; decide),
    List.filter_eq_nil_iff.mpr (fun x hx => by rw [hc3 x hx]; decide),
    List.filter_eq_nil_iff.mpr (fun x hx => by rw [hc4 x hx]; decide),
    List.filter_eq_self.mpr (fun x hx => hc5 x hx),
    List.filter_eq_nil_iff.mpr (fun x hx => by rw [hc6 x hx]; decide)]
  simp

theorem group64_6 : clusterGroup pts64 (findClustersLabels pts64) 6 = blockB 6 5 5 5 := by
  rw [labels64_eq, clusterGroup_eq_filter]
  have h1 : pts64.filter (fun p => labelOf pts64 p == 6) =
      (blockB 0 8 8 9 ++ (blockB 1 7 6 7 ++ (blockB 2 5 5 5 ++ (blockB 3 7 6 7 ++ (blockB 4 8 8 9 ++ (blockB 5 7 6 7 ++ (blockB 6 5 5 5))))))).filter (fun p => labelOf pts64 p == 6) :=
    congrArg _ pts64_decomp
  have hc0 : ∀ x ∈ blockB 0 8 8 9, (labelOf pts64 x == (6 : Nat)) = false := by
    intro x hx
    rw [labelOf64_0 x hx]
    decide
  have hc1 : ∀ x ∈ blockB 1 7 6 7, (labelOf pts64 x == (6 : Nat)) = false := by
    intro x hx
    rw [labelOf64_1 x hx]
    decide
  have hc2 : ∀ x ∈ blockB 2 5 5 5, (labelOf pts64 x == (6 : Nat)) = false := by
    intro x hx
    rw [labelOf64_2 x hx]
    decide
  have hc3 : ∀ x ∈ blockB 3 7 6 7, (labelOf pts64 x == (6 : Nat)) = false := by
    intro x hx
    rw [labelOf64_3 x hx]
    decide
  have hc4 : ∀ x ∈ blockB 4 8 8 9, (labelOf pts64 x == (6 : Nat)) = false := by
    intro x hx
    rw [labelOf64_4 x hx]
    decide
  have hc5 : ∀ x ∈ blockB 5 7 6 7, (labelOf pts64 x == (6 : Nat)) = false := by
    intro x hx
    rw [labelOf64_5 x hx]
    decide
  have hc6 : ∀ x ∈ blockB 6 5 5 5, (labelOf pts64 x == (6 : Nat)) = true := by
    intro x hx
    rw [labelOf64_6 x hx]
    decide
  rw [h1, List.filter_append, List.filter_append, List.filter_append, List.filter_append, List.filter_append, List.filter_append]
  rw [List.filter_eq_nil_iff.mpr (fun x hx => by rw [hc0 x hx]; decide),
    List.filter_eq_nil_iff.mpr (fun x hx => by rw [hc1 x hx]; decide),
    List.filter_eq_nil_iff.mpr (fun x hx => by rw [hc2 x hx]; decide),
    List.filter_eq_nil_iff.mpr (fun x hx => by rw [hc3 x hx]; decide),
    List.filter_eq_nil_iff.mpr (fun x hx => by rw [hc4 x hx]; decide),
    List.filter_eq_nil_iff.mpr (fun x hx => by rw [hc5 x hx]; decide),
    List.filter_eq_self.mpr (fun x hx => hc6 x hx)]
  simp

set_option maxRecDepth 40000 in
theorem flen64_0 : find_length (blockB 0 8 8 9) = 20 := by
  unfold find_length
  rw [show natMax ((blockB 0 8 8 9).map Prod.snd) = 16 from by decide,
    show natMin ((blockB 0 8 8 9).map Prod.snd) = 0 from by decide,
    show natMax ((blockB 0 8 8 9).map Prod.fst) = 12 from by decide,
    show natMin ((blockB 0 8 8 9).map Prod.fst) = 0 from by decide]
  rw [show ((16 - 0) ^ 2 + (12 - 0) ^ 2 : ℕ) = 400 from by norm_num]
  rw [show ((400 : ℕ) : ℝ) = 20 ^ 2 from by norm_num]
  exact Real.sqrt_sq (by norm_num)

set_option maxRecDepth 40000 in
theorem flen64_1 : find_length (blockB 1 7 6 7) = 20 := by
  unfold find_length
  rw [show natMax ((blockB 1 7 6 7).map Prod.snd) = 16 from by decide,
    show natMin ((blockB 1 7 6 7).map Prod.snd) = 0 from by decide,
    show natMax ((blockB 1 7 6 7).map Prod.fst) = 26 from by decide,
    show natMin ((blockB 1 7 6 7).map Prod.fst) = 14 from by decide]
  rw [show ((16 - 0) ^ 2 + (26 - 14) ^ 2 : ℕ) = 400 from by norm_num]
  rw [show ((400 : ℕ) : ℝ) = 20 ^ 2 from by norm_num]
  exact Real.sqrt_sq (by norm_num)

set_option maxRecDepth 40000 in
theorem flen64_2 : find_length (blockB 2 5 5 5) = 20 := by
  unfold find_length
  rw [show natMax ((blockB 2 5 5 5).map Prod.snd) = 16 from by decide,
    show natMin ((blockB 2 5 5 5).map Prod.snd) = 0 from by decide,
    show natMax ((blockB 2 5 5 5).map Prod.fst) = 40 from by decide,
    show natMin ((blockB 2 5 5 5).map Prod.fst) = 28 from by decide]
  rw [show ((16 - 0) ^ 2 + (40 - 28) ^ 2 : ℕ) = 400 from by norm_num]
  rw [show ((400 : ℕ) : ℝ) = 20 ^ 2 from by norm_num]
  exact Real.sqrt_sq (by norm_num)

set_option maxRecDepth 40000 in
theorem flen64_3 : find_length (blockB 3 7 6 7) = 20 := by
  unfold find_length
  rw [show natMax ((blockB 3 7 6 7).map Prod.snd) = 16 from by decide,
    show natMin ((blockB 3 7 6 7).map Prod.snd) = 0 from by decide,
    show natMax ((blockB 3 7 6 7).map Prod.fst) = 54 from by decide,
    show natMin ((blockB 3 7 6 7).map Prod.fst) = 42 from by decide]
  rw [show ((16 - 0) ^ 2 + (54 - 42) ^ 2 : ℕ) = 400 from by norm_num]
  rw [show ((400 : ℕ) : ℝ) = 20 ^ 2 from by norm_num]
  exact Real.sqrt_sq (by norm_num)

set_option maxRecDepth 40000 in
theorem flen64_4 : find_length (blockB 4 8 8 9) = 20 := by
  unfold find_length
  rw [show natMax ((blockB 4 8 8 9).map Prod.snd) = 16 from by decide,
    show natMin ((blockB 4 8 8 9).map Prod.snd) = 0 from by decide,
    show natMax ((blockB 4 8 8 9).map Prod.fst) = 68 from by decide,
    show natMin ((blockB 4 8 8 9).map Prod.fst) = 56 from by decide]
  rw [show ((16 - 0) ^ 2 + (68 - 56) ^ 2 : ℕ) = 400 from by norm_num]
  rw [show ((400 : ℕ) : ℝ) = 20 ^ 2 from by norm_num]
  exact Real.sqrt_sq (by norm_num)

set_option maxRecDepth 40000 in
theorem flen64_5 : find_length (blockB 5 7 6 7) = 20 := by
  unfold find_length
  rw [show natMax ((blockB 5 7 6 7).map Prod.snd) = 16 from by decide,
    show natMin ((blockB 5 7 6 7).map Prod.snd) = 0 from by decide,
    show natMax ((blockB 5 7 6 7).map Prod.fst) = 82 from by decide,
    show natMin ((blockB 5 7 6 7).map Prod.fst) = 70 from by decide]
  rw [show ((16 - 0) ^ 2 + (82 - 70) ^ 2 : ℕ) = 400 from by norm_num]
  rw [show ((400 : ℕ) : ℝ) = 20 ^ 2 from by norm_num]
  exact Real.sqrt_sq (by norm_num)

set_option maxRecDepth 40000 in
theorem flen64_6 : find_length (blockB 6 5 5 5) = 20 := by
  unfold find_length
  rw [show natMax ((blockB 6 5 5 5).map Prod.snd) = 16 from by decide,
    show natMin ((blockB 6 5 5 5).map Prod.snd) = 0 from by decide,
    show natMax ((blockB 6 5 5 5).map Prod.fst) = 96 from by decide,
    show natMin ((blockB 6 5 5 5).map Prod.fst) = 84 from by decide]
  rw [show ((16 - 0) ^ 2 + (96 - 84) ^ 2 : ℕ) = 400 from by norm_num]
  rw [show ((400 : ℕ) : ℝ) = 20 ^ 2 from by norm_num]
  exact Real.sqrt_sq (by norm_num)

theorem width64_0 :
    clusterWidth pts64 (findClustersLabels pts64) 0 = 195 / 20 := by
  unfold clusterWidth
  rw [group64_0, flen64_0, blockB_len.1]
  norm_num

theorem width64_1 :
    clusterWidth pts64 (findClustersLabels pts64) 1 = 190 / 20 := by
  unfold clusterWidth
  rw [group64_1, flen64_1, blockB_len.2.1]
  norm_num

theorem width64_2 :
    clusterWidth pts64 (findClustersLabels pts64) 2 = 185 / 20 := by
  unfold clusterWidth
  rw [group64_2, flen64_2, blockB_len.2.2.1]
  norm_num

theorem width64_3 :
    clusterWidth pts64 (findClustersLabels pts64) 3 = 190 / 20 := by
  unfold clusterWidth
  rw [group64_3, flen64_3, blockB_len.2.2.2.1]
  norm_num

theorem width64_4 :
    clusterWidth pts64 (findClustersLabels pts64) 4 = 195 / 20 := by
  unfold clusterWidth
  rw [group64_4, flen64_4, blockB_len.2.2.2.2.1]
  norm_num

theorem width64_5 :
    clusterWidth pts64 (findClustersLabels pts64) 5 = 190 / 20 := by
  unfold clusterWidth
  rw [group64_5, flen64_5, blockB_len.2.2.2.2.2.1]
  norm_num

theorem width64_6 :
    clusterWidth pts64 (findClustersLabels pts64) 6 = 185 / 20 := by
  unfold clusterWidth
  rw [group64_6, flen64_6, blockB_len.2.2.2.2.2.2]
  norm_num

theorem accept64_w195 : outlier_probability 0.9 8 1 30 5 (195 / 20) < 0.9 :=
  outlier_lt_09 (by norm_num)

theorem accept64_w190 : outlier_probability 0.9 8 1 30 5 (190 / 20) < 0.9 :=
  outlier_lt_09 (by norm_num)

theorem accept64_w185 : outlier_probability 0.9 8 1 30 5 (185 / 20) < 0.9 :=
  outlier_lt_09 (by norm_num)

theorem good64 : goodClusters pts64 (findClustersLabels pts64) = [0, 1, 2, 3, 4, 5, 6] := by
  unfold goodClusters
  rw [numClusters64, show List.range 7 = [0, 1, 2, 3, 4, 5, 6] from rfl]
  apply List.filter_eq_self.mpr
  intro k hk
  rw [Bool.and_eq_true]
  fin_cases hk
  · exact ⟨by rw [decide_eq_true_eq, group64_0, blockB_len.1]; norm_num,
      decide_eq_true (by rw [width64_0]; exact accept64_w195)⟩
  · exact ⟨by rw [decide_eq_true_eq, group64_1, blockB_len.2.1]; norm_num,
      decide_eq_true (by rw [width64_1]; exact accept64_w190)⟩
  · exact ⟨by rw [decide_eq_true_eq, group64_2, blockB_len.2.2.1]; norm_num,
      decide_eq_true (by rw [width64_2]; exact accept64_w185)⟩
  · exact ⟨by rw [decide_eq_true_eq, group64_3, blockB_len.2.2.2.1]; norm_num,
      decide_eq_true (by rw [width64_3]; exact accept64_w190)⟩
  · exact ⟨by rw [decide_eq_true_eq, group64_4, blockB_len.2.2.2.2.1]; norm_num,
      decide_eq_true (by rw [width64_4]; exact accept64_w195)⟩
  · exact ⟨by rw [decide_eq_true_eq, group64_5, blockB_len.2.2.2.2.2.1]; norm_num,
      decide_eq_true (by rw [width64_5]; exact accept64_w190)⟩
  · exact ⟨by rw [decide_eq_true_eq, group64_6, blockB_len.2.2.2.2.2.2]; norm_num,
      decide_eq_true (by rw [width64_6]; exact accept64_w185)⟩

theorem acceptedWidths64 : acceptedWidths pts64 (findClustersLabels pts64) =
    [195 / 20, 190 / 20, 185 / 20, 190 / 20, 195 / 20, 190 / 20, 185 / 20] := by
  unfold acceptedWidths
  rw [good64]
  simp only [List.map_cons, List.map_nil]
  rw [width64_0, width64_1, width64_2, width64_3, width64_4, width64_5, width64_6]

theorem npVar64 :
    npVar [(195 : ℝ) / 20, 190 / 20, 185 / 20, 190 / 20, 195 / 20, 190 / 20, 185 / 20] = 1 / 28 := by
  unfold npVar
  simp only [List.map_cons, List.map_nil, List.sum_cons, List.sum_nil,
    List.length_cons, List.length_nil]
  norm_num

theorem chi64 : chi_square pts64 (findClustersLabels pts64) = 64 := by
  unfold chi_square
  rw [acceptedWidths64, good64, npVar64]
  rw [if_neg (by simp : ¬([(195 : ℝ) / 20, 190 / 20, 185 / 20, 190 / 20, 195 / 20, 190 / 20, 185 / 20] = []))]
  rw [if_neg (by norm_num : ¬((1 : ℝ) / 28 = 0))]
  simp only [List.map_cons, List.map_nil, List.sum_cons, List.sum_nil,
    List.length_cons, List.length_nil]
  norm_num

/-- C4 counterexample to the "only if" direction: on the 97x17 image `G64`
with threshold 1, the pipeline accepts 7 clusters (sizes 195, 195, 190, 190,
190, 185, 185, all of bounding-box length 20, widths 9.75, 9.5 and 9.25) and
chi-square is still exactly 64. The sizes are multiples of 5, so the widths
are dyadic rationals and the float64 evaluation of every intermediate sum is
exact in double precision too: the score is exactly 64.0 in IEEE-754
arithmetic for every ordering of the clusters, not only in the real-number
model. -/
theorem claim_C4_cex :
    (goodClusters (sePoints (filter_lone_pixels (simple_lin_map [1] G64)))
      (findClustersLabels (sePoints (filter_lone_pixels
        (simple_lin_map [1] G64))))).length = 7 ∧
    acceptedWidths (sePoints (filter_lone_pixels (simple_lin_map [1] G64)))
      (findClustersLabels (sePoints (filter_lone_pixels
        (simple_lin_map [1] G64)))) ≠ [] ∧
    cluster_image_chi (simple_lin_map [1] G64) = 64 := by
  refine ⟨?_, ?_, ?_⟩
  · show (goodClusters pts64 (findClustersLabels pts64)).length = 7
    rw [good64]
    rfl
  · show acceptedWidths pts64 (findClustersLabels pts64) ≠ []
    rw [acceptedWidths64]
    simp
  · show chi_square pts64 (findClustersLabels pts64) = 64
    exact chi64

end Nanotube


